import Mathlib

/-!
Verification development for the unified project scanner
(src/scripts/unified_scanner.py).

The Python source is shallowly embedded: every pure helper becomes a Lean
function, the stateful scan becomes explicit state passing over a
`ScanStats` record, the filesystem that the scanner walks is modelled as a
finite tree of named entries, fallible operations (stat, read, JSON parse)
are modelled with explicit success flags / `Option`.  Strings are compared
by Unicode code point, exactly as CPython compares `str` values on POSIX.
-/

namespace UScan

/-! ## Basic string helpers -/

/-- Whitespace as recognised by Python's `str.strip()` (ASCII part; the
scanner's input lines are ASCII-ish pattern lines). -/
def isPySpace (c : Char) : Bool :=
  c == ' ' || c == '\t' || c == '\n' || c == '\r' || c == '\x0b' || c == '\x0c'

/-- Python `line.strip()`: drop leading and trailing whitespace. -/
def pyStrip (s : String) : String :=
  String.mk (((s.data.dropWhile isPySpace).reverse.dropWhile isPySpace).reverse)

/-- Code-point lexicographic `<` on character lists: CPython's `str`
comparison order. -/
def charsLt : List Char → List Char → Bool
  | [], [] => false
  | [], _ :: _ => true
  | _ :: _, [] => false
  | a :: as, b :: bs =>
      if a.toNat < b.toNat then true
      else if b.toNat < a.toNat then false
      else charsLt as bs

/-- CPython's `s <= t` on strings, by code points. -/
def strLe (s t : String) : Bool := !(charsLt t.data s.data)

/-- Python `s.startswith(t)` (on whole strings). -/
def strStartsWith (s t : String) : Bool := t.data.isPrefixOf s.data

/-- Python `s.endswith(t)` (on whole strings). -/
def strEndsWith (s t : String) : Bool := t.data.isSuffixOf s.data

/-- Python `s[n:]`. -/
def strDrop (s : String) (n : Nat) : String := String.mk (s.data.drop n)

/-- Python `t in s` substring test, on character lists. -/
def subListOf : List Char → List Char → Bool
  | n, [] => n.isEmpty
  | n, c :: t => n.isPrefixOf (c :: t) || subListOf n t

/-- Split a character list at every occurrence of a separator. -/
def splitOnChar (sep : Char) : List Char → List (List Char)
  | [] => [[]]
  | c :: rest =>
      let r := splitOnChar sep rest
      if c == sep then [] :: r
      else
        match r with
        | h :: t => (c :: h) :: t
        | [] => [[c]]

/-- Python `text.split(sep)` for a one-character separator; used to model
reading a text file line by line. -/
def splitLines (s : String) : List String := (splitOnChar '\n' s.data).map String.mk

/-- Last index of a character in a list (Python `str.rfind`), if any. -/
def lastIdxOf : List Char → Char → Option Nat
  | [], _ => none
  | a :: as, c =>
      match lastIdxOf as c with
      | some i => some (i + 1)
      | none => if a == c then some 0 else none

/-- `pathlib.PurePath.suffix` of a base name: the substring from the last
dot, provided that dot is neither the first nor the last character
(`0 < i < len(name) - 1`); otherwise the empty string. -/
def pathSuffix (name : String) : String :=
  match lastIdxOf name.data '.' with
  | none => ""
  | some i =>
      if 0 < i ∧ i < name.data.length - 1 then String.mk (name.data.drop i) else ""

/-- Python `str.lower()` (ASCII range; the scanner compares extensions
against ASCII extension sets). -/
def strLower (s : String) : String := String.mk (s.data.map Char.toLower)

/-- `os.path.basename` on a `/`-separated path string. -/
def basename (p : String) : String :=
  match lastIdxOf p.data '/' with
  | none => p
  | some i => String.mk (p.data.drop (i + 1))

/-- Join path components with `/`, as `str(PurePosixPath)` renders the
relative paths the scanner manipulates. -/
def joinPath : List String → String
  | [] => ""
  | [n] => n
  | n :: rest => n ++ "/" ++ joinPath rest

/-! ## fnmatch-style glob matching

`fnmatch.fnmatch` translates the pattern to a regular expression and
matches the whole string; on POSIX no case folding happens.  `*` matches
any (possibly empty) sequence, `?` any single character, `[...]` a
character set with `!`-negation and `a-b` ranges; a `[` with no closing
`]` is a literal `[` (same scan as `fnmatch.translate`: an optional
leading `!`, then an optional first `]`, then everything up to the next
`]`). -/

/-- Scan to the closing `]` of a bracket expression, returning the
content before it and the remainder after it. -/
def spanUntilRB : List Char → Option (List Char × List Char)
  | [] => none
  | c :: rest =>
      if c == ']' then some ([], rest)
      else
        match spanUntilRB rest with
        | none => none
        | some (s, r) => some (c :: s, r)

/-- The bracket-expression scan of `fnmatch.translate`: starting after a
`[`, skip an optional `!`, then an optional first `]`, then scan to the
next `]`.  Returns the raw content (including the `!`) and the rest of
the pattern, or `none` when no closing `]` exists. -/
def scanBracket : List Char → Option (List Char × List Char)
  | [] => none
  | a :: rest₁ =>
      if a == '!' then
        match rest₁ with
        | [] => none
        | b :: rest₂ =>
            if b == ']' then
              (spanUntilRB rest₂).map (fun sr => ('!' :: ']' :: sr.1, sr.2))
            else
              (spanUntilRB rest₁).map (fun sr => ('!' :: sr.1, sr.2))
      else if a == ']' then
        (spanUntilRB rest₁).map (fun sr => (']' :: sr.1, sr.2))
      else
        spanUntilRB (a :: rest₁)

/-- Membership of a character in a bracket expression body, with `a-b`
ranges (an inverted range matches nothing, as in `fnmatch.translate`,
which deletes empty ranges). -/
def matchSeq : List Char → Char → Bool
  | [], _ => false
  | a :: '-' :: b :: rest, c =>
      if a.val ≤ c.val ∧ c.val ≤ b.val then true else matchSeq rest c
  | a :: rest, c => a == c || matchSeq rest c

/-- Bracket-expression match, honouring a leading `!` negation. -/
def matchBracket (stuff : List Char) (c : Char) : Bool :=
  match stuff with
  | '!' :: rest => !(matchSeq rest c)
  | _ => matchSeq stuff c

/-- One step of the glob matcher underlying `fnmatch.fnmatch`
(whole-string match; `*` also crosses `/` and newline, as the translated
regex does).  The `Nat` argument is a structural recursion bound: every
recursive call shrinks `ps.length + s.length`, so any bound above that
quantity gives the same answer (`globMatchF_stable`), and the `0` case is
never reached from `globMatch`. -/
def globMatchF : Nat → List Char → List Char → Bool
  | 0, _, _ => false
  | f + 1, ps, s =>
      match ps with
      | [] => s.isEmpty
      | p :: ps' =>
          if p == '*' then
            globMatchF f ps' s ||
              (match s with
               | [] => false
               | _ :: s' => globMatchF f ps s')
          else if p == '?' then
            (match s with
             | [] => false
             | _ :: s' => globMatchF f ps' s')
          else if p == '[' then
            (match scanBracket ps' with
             | none =>
                (match s with
                 | c :: s' => (c == '[') && globMatchF f ps' s'
                 | [] => false)
             | some (stuff, rest) =>
                (match s with
                 | c :: s' => matchBracket stuff c && globMatchF f rest s'
                 | [] => false))
          else
            (match s with
             | c :: s' => (p == c) && globMatchF f ps' s'
             | [] => false)

/-- The glob matcher: pattern `ps` against string `s`. -/
def globMatch (ps s : List Char) : Bool :=
  globMatchF (ps.length + s.length + 1) ps s

/-- `fnmatch.fnmatch(name, pat)` on POSIX. -/
def fnmatch (name pat : String) : Bool := globMatch pat.data name.data

/-! ## Gitignore-style pattern matcher (`GitignoreParser`) -/

/-- `GitignoreParser.load`: strip each line, skip blanks and `#` comments,
a leading `!` marks (and is stripped from) a negation pattern; patterns
keep file order. -/
def parseGitignoreLines (lines : List String) : List (String × Bool) :=
  lines.filterMap (fun line =>
    let l := pyStrip line
    if l.data.isEmpty || strStartsWith l "#" then none
    else if strStartsWith l "!" then some (strDrop l 1, true)
    else some (l, false))

/-- One pattern matches when it glob-matches the full relative path or
the path's base name (body of the loop in
`GitignoreParser.should_ignore`). -/
def gitPatMatches (pat : String) (path : String) : Bool :=
  fnmatch path pat || fnmatch (basename path) pat

/-- `GitignoreParser.should_ignore`: with no patterns the answer is
`False`; otherwise every pattern is visited in file order and each match
overwrites the running flag with `not is_negation`. -/
def gitShouldIgnore (patterns : List (String × Bool)) (path : String) : Bool :=
  if patterns.isEmpty then false
  else
    patterns.foldl
      (fun ignored pn => if gitPatMatches pn.1 path then !pn.2 else ignored)
      false

/-! ## Stable sorting

Python's `sorted` / `list.sort` is a stable sort; a stable sort's output
is uniquely determined by the input order and the (total) key comparison,
so the insertion sort below is extensionally the same function. -/

/-- Insert `x` before the first element `y` with `le x y` (stable
placement: an incoming later element goes after equal earlier ones). -/
def pyInsert (le : α → α → Bool) (x : α) : List α → List α
  | [] => [x]
  | y :: ys => if le x y then x :: y :: ys else y :: pyInsert le x ys

/-- Stable sort by a boolean (total) comparison, as Python's `sorted`. -/
def pySort (le : α → α → Bool) : List α → List α
  | [] => []
  | x :: xs => pyInsert le x (pySort le xs)

/-! ## Configuration (`ProjectConfig`, `ConfigLoader`)

Python `set[str]` fields are modelled as `List String`: the scanner only
ever tests membership in them (and unions them), so the representation is
observationally equivalent; unions keep the left operand's elements and
append the new ones. -/

def DEFAULT_MAX_FILE_SIZE : Int := 1 * 1024 * 1024

structure ProjectConfig where
  name : String
  project_type : String := "generic"
  code_extensions : List String := []
  config_files : List String := []
  ignore_dirs : List String := []
  ignore_files : List String := []
  ignore_extensions : List String := []
  ignore_patterns : List String := []
  target_subdirs : List String := []
  max_file_size : Int := DEFAULT_MAX_FILE_SIZE
  include_hidden : Bool := false
deriving DecidableEq

/-- Union of string sets (membership-preserving on list models). -/
def listUnion (a b : List String) : List String :=
  a ++ b.filter (fun x => !(a.contains x))

/-- The baseline configuration of `load_default_config`: the fixed
extension / file-name / ignore sets and the primary project type. -/
def baseConfig (pname : String) (ptypes : List String) : ProjectConfig :=
  { name := pname,
    project_type := (match ptypes with
      | [] => "generic"
      | t :: _ => t),
    code_extensions := [
      ".py", ".js", ".jsx", ".ts", ".tsx", ".java", ".kt", ".kts",
      ".rs", ".go", ".c", ".cpp", ".h", ".hpp", ".cs", ".rb",
      ".php", ".swift", ".dart", ".html", ".css", ".scss", ".sass",
      ".md", ".json", ".yaml", ".yml", ".xml", ".toml", ".sh", ".bash"],
    config_files := [
      "package.json", "tsconfig.json", "webpack.config.js",
      "vite.config.js", "next.config.js", ".eslintrc.js",
      "requirements.txt", "setup.py", "pyproject.toml", "Pipfile",
      "pom.xml", "build.gradle", "settings.gradle",
      "Cargo.toml", "go.mod", "composer.json", "Gemfile",
      "pubspec.yaml", "Dockerfile", "docker-compose.yml",
      "README.md", "LICENSE", ".gitignore"],
    ignore_dirs := [
      "node_modules", "dist", "build", "target", "__pycache__",
      ".git", ".svn", ".hg", ".vscode", ".idea", ".DS_Store",
      "venv", "env", ".env", "virtualenv", ".tox",
      "coverage", "htmlcov", ".pytest_cache", ".mypy_cache",
      ".gradle", ".mvn", "out", "bin", "obj",
      ".next", ".nuxt", ".cache", ".parcel-cache",
      "Pods", "DerivedData", ".dart_tool", ".pub-cache"],
    ignore_files := [
      ".DS_Store", "Thumbs.db", "desktop.ini",
      "*.log", "*.pid", "*.seed", "*.lock",
      "package-lock.json", "yarn.lock", "pnpm-lock.yaml",
      "Pipfile.lock", "Cargo.lock", "go.sum",
      ".env", ".env.local", ".env.production"],
    ignore_extensions := [
      ".pyc", ".pyo", ".pyd", ".so", ".dll", ".dylib",
      ".class", ".jar", ".exe", ".bin", ".obj", ".o",
      ".png", ".jpg", ".jpeg", ".gif", ".ico", ".svg",
      ".woff", ".woff2", ".ttf", ".otf", ".eot",
      ".mp3", ".mp4", ".avi", ".mov", ".zip", ".tar", ".gz"] }

/-- `if 'python' in project_types or 'django' in project_types:` -/
def overlayPython (ptypes : List String) (cfg : ProjectConfig) : ProjectConfig :=
  if ptypes.contains "python" || ptypes.contains "django" then
    { cfg with
      target_subdirs := ["src", "app", "backend", "back"],
      code_extensions := listUnion cfg.code_extensions [".pyx", ".pyi"] }
  else cfg

/-- `if 'nodejs' in ... or 'react' in ... or 'vue' in ...:` -/
def overlayNode (ptypes : List String) (cfg : ProjectConfig) : ProjectConfig :=
  if ptypes.contains "nodejs" || ptypes.contains "react" || ptypes.contains "vue" then
    { cfg with
      target_subdirs := ["src", "lib", "components", "pages"],
      code_extensions := listUnion cfg.code_extensions [".mjs", ".cjs", ".vue"] }
  else cfg

/-- `if 'java' in project_types or 'spring' in project_types:` -/
def overlayJava (ptypes : List String) (cfg : ProjectConfig) : ProjectConfig :=
  if ptypes.contains "java" || ptypes.contains "spring" then
    { cfg with
      target_subdirs := ["src/main/java", "src/main/resources", "src"],
      ignore_dirs := listUnion cfg.ignore_dirs ["target", ".gradle", ".mvn"] }
  else cfg

/-- `if 'rust' in project_types:` -/
def overlayRust (ptypes : List String) (cfg : ProjectConfig) : ProjectConfig :=
  if ptypes.contains "rust" then
    { cfg with
      target_subdirs := ["src"],
      ignore_dirs := listUnion cfg.ignore_dirs ["target"] }
  else cfg

/-- `if 'go' in project_types:` -/
def overlayGo (ptypes : List String) (cfg : ProjectConfig) : ProjectConfig :=
  if ptypes.contains "go" then { cfg with target_subdirs := ["pkg", "cmd", "internal"] }
  else cfg

/-- `if 'flutter' in project_types:` -/
def overlayFlutter (ptypes : List String) (cfg : ProjectConfig) : ProjectConfig :=
  if ptypes.contains "flutter" then
    { cfg with
      target_subdirs := ["lib"],
      ignore_dirs := listUnion cfg.ignore_dirs [".dart_tool", "build", "android", "ios"] }
  else cfg

/-- `ConfigLoader.load_default_config`: the fixed baseline followed by
the non-exclusive, fixed-order type-specific overlays. -/
def load_default_config (pname : String) (ptypes : List String) : ProjectConfig :=
  overlayFlutter ptypes (overlayGo ptypes (overlayRust ptypes (overlayJava ptypes
    (overlayNode ptypes (overlayPython ptypes (baseConfig pname ptypes))))))

/-! ## JSON values and `ConfigLoader.load_from_file`

A parsed `.scanner-config.json` is a `JVal`; `none` stands for the two
failure modes the source's `try` block catches before any merge runs: an
I/O error opening/reading the file and a `json.load` parse error.  JSON
numbers are modelled as integers (the spec declares `max_file_size` an
integer byte count). -/

inductive JVal where
  | null
  | bool (b : Bool)
  | num (n : Int)
  | str (s : String)
  | arr (elems : List JVal)
  | obj (fields : List (String × JVal))

/-- Python dict lookup on a parsed JSON object (`json.load` keeps the last
of duplicate keys). -/
def jsonMember (fields : List (String × JVal)) (k : String) : Option JVal :=
  (fields.reverse.find? (fun f => f.1 == k)).map (fun f => f.2)

/-- Python `set(v)` on a JSON value, keeping the string members (non-string
hashable members of a list would sit inertly in a `Set[str]` the scanner
only probes with string keys, so they are dropped); `none` is the
`TypeError` raised on non-iterable values or unhashable elements, which
the source's `except` catches. -/
def setFromJson : JVal → Option (List String)
  | JVal.str s => some (s.data.map (fun c => String.mk [c]))
  | JVal.arr xs =>
      if xs.any (fun j => match j with
          | JVal.arr _ => true
          | JVal.obj _ => true
          | _ => false) then none
      else some (xs.filterMap (fun j => match j with
          | JVal.str t => some t
          | _ => none))
  | JVal.obj fs => some (fs.map (fun f => f.1))
  | _ => none

/-- Python truthiness of a JSON value (`include_hidden` is only ever used
in boolean position, so storing the truth value is observationally
exact). -/
def jTruthy : JVal → Bool
  | JVal.null => false
  | JVal.bool b => b
  | JVal.num n => decide (n ≠ 0)
  | JVal.str s => !s.data.isEmpty
  | JVal.arr xs => !xs.isEmpty
  | JVal.obj fs => !fs.isEmpty

/-- One `if key in data: field.update(set(data[key]))` step; the second
component is true when `set(...)` raised and the `except` path runs with
whatever has been merged so far. -/
def mergeUnionKey (fields : List (String × JVal)) (key : String)
    (get : ProjectConfig → List String)
    (upd : ProjectConfig → List String → ProjectConfig)
    (cfg : ProjectConfig) : ProjectConfig × Bool :=
  match jsonMember fields key with
  | none => (cfg, false)
  | some v =>
      match setFromJson v with
      | none => (cfg, true)
      | some xs => (upd cfg (listUnion (get cfg) xs), false)

/-- The override keys probed by `load_from_file`, in source order. -/
def overrideKeys : List String :=
  ["code_extensions", "ignore_dirs", "ignore_files", "ignore_extensions",
   "target_subdirs", "max_file_size", "include_hidden"]

/-- Is this JSON value the given string? (`'key' in data` on a list). -/
def jIsStr (j : JVal) (k : String) : Bool :=
  match j with
  | JVal.str s => s == k
  | _ => false

/-- `ConfigLoader.load_from_file`.  Input `none` is an open/read/parse
failure (warn, return the base config untouched).  On an object, the four
set keys union-merge in source order, `target_subdirs` replaces,
`max_file_size` replaces (numeric values; the spec declares it an
integer), `include_hidden` replaces with the value's truthiness; a
`TypeError` in a `set(...)` conversion aborts the remaining merges via the
`except` path.  A non-object top level makes `'key' in data` either raise
(null/bool/number) or probe list elements / substrings, and any present
key raises on subscripting; both give the warn-and-return-current path.
The second component records whether the warning was printed. -/
def load_from_file (parsed : Option JVal) (base : ProjectConfig) : ProjectConfig × Bool :=
  match parsed with
  | none => (base, true)
  | some (JVal.obj fields) =>
      let s1 := mergeUnionKey fields "code_extensions" (fun c => c.code_extensions)
        (fun c xs => { c with code_extensions := xs }) base
      if s1.2 then (s1.1, true) else
      let s2 := mergeUnionKey fields "ignore_dirs" (fun c => c.ignore_dirs)
        (fun c xs => { c with ignore_dirs := xs }) s1.1
      if s2.2 then (s2.1, true) else
      let s3 := mergeUnionKey fields "ignore_files" (fun c => c.ignore_files)
        (fun c xs => { c with ignore_files := xs }) s2.1
      if s3.2 then (s3.1, true) else
      let s4 := mergeUnionKey fields "ignore_extensions" (fun c => c.ignore_extensions)
        (fun c xs => { c with ignore_extensions := xs }) s3.1
      if s4.2 then (s4.1, true) else
      let s5 : ProjectConfig × Bool :=
        match jsonMember fields "target_subdirs" with
        | none => (s4.1, false)
        | some v =>
            match setFromJson v with
            | none => (s4.1, true)
            | some xs => ({ s4.1 with target_subdirs := xs }, false)
      if s5.2 then (s5.1, true) else
      let c6 : ProjectConfig :=
        match jsonMember fields "max_file_size" with
        | some (JVal.num n) => { s5.1 with max_file_size := n }
        | _ => s5.1
      let c7 : ProjectConfig :=
        match jsonMember fields "include_hidden" with
        | some v => { c6 with include_hidden := jTruthy v }
        | none => c6
      (c7, false)
  | some (JVal.arr xs) =>
      (base, overrideKeys.any (fun k => xs.any (fun j => jIsStr j k)))
  | some (JVal.str s) =>
      (base, overrideKeys.any (fun k => subListOf k.data s.data))
  | some _ => (base, true)

/-! ## Filesystem model

A project directory is a finite tree of named entries.  A file carries its
raw bytes (what `open(..., 'rb')` reads and `stat` sizes), its decoded
text (what `open(..., 'r', errors='ignore')` yields), and success flags
for the three fallible operations on it: `statOk` (`Path.stat`),
`probeOk` (the binary-sniff read), `textOk` (the text read); `errMsg` is
the exception text shown when the text read fails. -/

structure FileData where
  bytes : List Nat
  text : String
  statOk : Bool := true
  probeOk : Bool := true
  textOk : Bool := true
  errMsg : String := ""
deriving DecidableEq

inductive FsEntry where
  | file (name : String) (data : FileData)
  | dir (name : String) (children : List FsEntry)

def entryName : FsEntry → String
  | FsEntry.file n _ => n
  | FsEntry.dir n _ => n

def entryIsDir : FsEntry → Bool
  | FsEntry.file _ _ => false
  | FsEntry.dir _ _ => true

/-- Look an immediate child up by name (names are unique in a real
directory; the first hit is taken). -/
def findEntry (cs : List FsEntry) (n : String) : Option FsEntry :=
  cs.find? (fun c => entryName c == n)

/-- Resolve a file by relative path components and return its data
(`open` on the joined path); a dangling path or a directory yields
`none`. -/
def fsGet : List FsEntry → List String → Option FileData
  | _, [] => none
  | cs, [n] =>
      match findEntry cs n with
      | some (FsEntry.file _ d) => some d
      | _ => none
  | cs, n :: rest =>
      match findEntry cs n with
      | some (FsEntry.dir _ cs') => fsGet cs' rest
      | _ => none

/-- `Path.exists` on a relative component path (files and directories
both count). -/
def pathExists : List FsEntry → List String → Bool
  | _, [] => false
  | cs, [n] => (findEntry cs n).isSome
  | cs, n :: rest =>
      match findEntry cs n with
      | some (FsEntry.dir _ cs') => pathExists cs' rest
      | _ => false

/-- All descendant paths of a directory tree, as component lists. -/
def allPaths : List FsEntry → List (List String)
  | [] => []
  | FsEntry.file n _ :: rest => [n] :: allPaths rest
  | FsEntry.dir n cs :: rest =>
      ([n] :: (allPaths cs).map (fun p => n :: p)) ++ allPaths rest

/-! ## Project type detection (`ProjectDetector`) -/

/-- Split a marker pattern on `/` into path components. -/
def splitSlash (pat : String) : List String :=
  (splitOnChar '/' pat.data).map String.mk

/-- Trailing-components match for `Path.rglob(pattern)`: some descendant
path ends in components that `fnmatch` the pattern's components (the
static detection table contains no `*` pattern, so this branch of the
source is never taken for it; `**` inside a pattern is not modelled). -/
def rglobAny (cs : List FsEntry) (pat : String) : Bool :=
  let pats := splitSlash pat
  (allPaths cs).any (fun p =>
    pats.length ≤ p.length &&
      (List.zip (p.drop (p.length - pats.length)) pats).all
        (fun cq => fnmatch cq.1 cq.2))

/-- One marker test of `detect_project_types`: an exact existence check,
then — only for patterns containing `*` — a recursive glob; a missing
project directory (`none`) matches nothing and raises nothing. -/
def markerHit (d : Option (List FsEntry)) (pat : String) : Bool :=
  match d with
  | none => false
  | some cs =>
      if pathExists cs (splitSlash pat) then true
      else if pat.data.contains '*' then rglobAny cs pat
      else false

/-- `ProjectDetector.DETECTION_PATTERNS`, in declaration order. -/
def DETECTION_PATTERNS : List (String × List String) :=
  [("nodejs", ["package.json", "node_modules"]),
   ("python", ["requirements.txt", "setup.py", "pyproject.toml", "Pipfile", "__pycache__"]),
   ("django", ["manage.py", "settings.py", "wsgi.py"]),
   ("react", ["package.json", "src/App.jsx", "src/App.tsx", "public/index.html"]),
   ("nextjs", ["next.config.js", "next.config.mjs", "pages", "app"]),
   ("vue", ["package.json", "vue.config.js", "src/App.vue"]),
   ("angular", ["package.json", "angular.json", "src/app"]),
   ("java", ["pom.xml", "build.gradle", "gradlew", "src/main/java"]),
   ("maven", ["pom.xml", "mvnw"]),
   ("gradle", ["build.gradle", "settings.gradle", "gradlew"]),
   ("spring", ["pom.xml", "application.properties", "application.yml"]),
   ("rust", ["Cargo.toml", "Cargo.lock", "src/main.rs"]),
   ("go", ["go.mod", "go.sum", "main.go"]),
   ("dotnet", [".csproj", ".sln", ".fsproj", ".vbproj"]),
   ("php", ["composer.json", "index.php", "artisan"]),
   ("laravel", ["composer.json", "artisan", "app/Http"]),
   ("ruby", ["Gemfile", "Rakefile", ".rb"]),
   ("rails", ["Gemfile", "Rakefile", "config/application.rb"]),
   ("flutter", ["pubspec.yaml", "lib/main.dart", "android", "ios"]),
   ("docker", ["Dockerfile", "docker-compose.yml"])]

/-- `ProjectDetector.detect_project_types`: every table label whose marker
match count is positive, in table order; `["generic"]` when none is. -/
def detect_project_types (d : Option (List FsEntry)) : List String :=
  let detected := DETECTION_PATTERNS.filterMap (fun tp =>
    if 0 < tp.2.countP (fun pat => markerHit d pat) then some tp.1 else none)
  if detected.isEmpty then ["generic"] else detected

/-! ## Scanner predicates (`UnifiedScanner.should_*`)

Each predicate takes the relative path as the string `str(rel_path)` the
gitignore matcher sees, the entry's base name, and (for files) its
`FileData`. -/

/-- `UnifiedScanner.should_ignore_file` (the boolean component; the reason
string is presentation only). -/
def shouldIgnoreFile (cfg : ProjectConfig) (git : List (String × Bool))
    (relStr : String) (filename : String) (d : FileData) : Bool :=
  if !cfg.include_hidden && strStartsWith filename "." then true
  else if gitShouldIgnore git relStr then true
  else if cfg.ignore_files.any (fun pat => fnmatch filename pat) then true
  else if cfg.ignore_extensions.contains (strLower (pathSuffix filename)) then true
  else if !d.statOk then true
  else if (d.bytes.length : Int) > cfg.max_file_size then true
  else false

/-- `UnifiedScanner.should_ignore_dir` (boolean component). -/
def shouldIgnoreDir (cfg : ProjectConfig) (git : List (String × Bool))
    (relStr : String) (dirname : String) : Bool :=
  if !cfg.include_hidden && strStartsWith dirname "." then true
  else if gitShouldIgnore git relStr then true
  else if cfg.ignore_dirs.contains dirname then true
  else false

/-- `UnifiedScanner.should_include_file`. -/
def shouldIncludeFile (cfg : ProjectConfig) (filename : String) : Bool :=
  if cfg.config_files.contains filename then true
  else if cfg.code_extensions.contains (strLower (pathSuffix filename)) then true
  else if strLower (pathSuffix filename) == "" && !(strStartsWith filename ".") then true
  else false

/-! ## The walk (`os.walk` loop of `scan_directory`)

`os.walk` visits a directory's files, prunes the subdirectories that
`should_ignore_dir` flags (they are never descended into), and recurses
into the rest.  The queue of files to dump and the count of skipped files
are order-insensitive summaries of the walk (the queue is sorted before
use), so the recursion below visits children in list order.  Paths are
kept as component lists relative to the project root. -/

def queueList (cfg : ProjectConfig) (git : List (String × Bool)) :
    List String → List FsEntry → List (List String)
  | _, [] => []
  | rel, FsEntry.file n d :: rest =>
      (if shouldIgnoreFile cfg git (joinPath (rel ++ [n])) n d then []
       else if shouldIncludeFile cfg n then [rel ++ [n]] else [])
      ++ queueList cfg git rel rest
  | rel, FsEntry.dir n cs :: rest =>
      (if shouldIgnoreDir cfg git (joinPath (rel ++ [n])) n then []
       else queueList cfg git (rel ++ [n]) cs)
      ++ queueList cfg git rel rest

/-- Number of files the walk skips (`files_skipped` increments during the
walk). -/
def skippedCount (cfg : ProjectConfig) (git : List (String × Bool)) :
    List String → List FsEntry → Nat
  | _, [] => 0
  | rel, FsEntry.file n d :: rest =>
      (if shouldIgnoreFile cfg git (joinPath (rel ++ [n])) n d then 1 else 0)
      + skippedCount cfg git rel rest
  | rel, FsEntry.dir n cs :: rest =>
      (if shouldIgnoreDir cfg git (joinPath (rel ++ [n])) n then 0
       else skippedCount cfg git (rel ++ [n]) cs)
      + skippedCount cfg git rel rest

/-! ## Tree rendering (`UnifiedScanner._write_tree`) -/

/-- One rendered tree line, structured; `treeLineStr` is the exact string
the source writes for it. -/
structure TreeLine where
  pre : String
  isLast : Bool
  name : String
  isDir : Bool
deriving DecidableEq

def eqBar (n : Nat) : String := String.mk (List.replicate n '=')

def treeLineStr (t : TreeLine) : String :=
  t.pre ++ (if t.isLast then "└── " else "├── ") ++ t.name
    ++ (if t.isDir then "/" else "") ++ "\n"

/-- `sorted(directory.iterdir(), key=lambda x: (not x.is_dir(), x.name))`:
directories first, then name order (stable, so unique on distinct
names). -/
def childLE (a b : FsEntry) : Bool :=
  if (!entryIsDir a) == (!entryIsDir b) then strLe (entryName a) (entryName b)
  else (!(!entryIsDir a)) && (!entryIsDir b)

def sortChildren (cs : List FsEntry) : List FsEntry := pySort childLE cs

/-- The loop body of `_write_tree` over the sorted items of one directory:
`is_last_item` is computed on the sorted-but-unfiltered list (so a
trailing ignored entry leaves the last rendered entry with a `├── `
connector, as in the source); ignored entries are filtered; directories
recurse with the extended pre string after re-sorting their children. -/
def renderItems (cfg : ProjectConfig) (git : List (String × Bool))
    (rel : List String) (pre : String) : List FsEntry → List TreeLine
  | [] => []
  | item :: rest =>
      (match item with
       | FsEntry.file n d =>
           if shouldIgnoreFile cfg git (joinPath (rel ++ [n])) n d then []
           else [⟨pre, rest.isEmpty, n, false⟩]
       | FsEntry.dir n cs' =>
           if shouldIgnoreDir cfg git (joinPath (rel ++ [n])) n then []
           else
             ⟨pre, rest.isEmpty, n, true⟩ ::
               renderItems cfg git (rel ++ [n])
                 (pre ++ (if rest.isEmpty then "    " else "│   "))
                 (sortChildren cs'))
      ++ renderItems cfg git rel pre rest
termination_by cs => sizeOf cs
decreasing_by
  · have hins : ∀ (x : FsEntry) (l : List FsEntry),
        sizeOf (pyInsert childLE x l) = 1 + sizeOf x + sizeOf l := by
      intro x l
      induction l with
      | nil => simp [pyInsert]
      | cons y ys ih =>
          simp only [pyInsert]
          split
          · simp [List.cons.sizeOf_spec]
            try omega
          · simp [List.cons.sizeOf_spec, ih]
            try omega
    have hsort : ∀ (l : List FsEntry), sizeOf (pySort childLE l) = sizeOf l := by
      intro l
      induction l with
      | nil => rfl
      | cons x xs ih => simp [pySort, hins, ih, List.cons.sizeOf_spec]
    simp only [sortChildren, hsort]
    simp [FsEntry.dir.sizeOf_spec, List.cons.sizeOf_spec]
    try omega
  · simp [List.cons.sizeOf_spec]
    try omega

/-- `_write_tree(project_dir, ...)`: render the project root with empty
pre string. -/
def writeTree (cfg : ProjectConfig) (git : List (String × Bool))
    (cs : List FsEntry) : List TreeLine :=
  renderItems cfg git [] "" (sortChildren cs)

/-! ## Scan statistics and the dump phase -/

structure ScanStats where
  files_processed : Nat
  files_skipped : Nat
  total_size : Nat
  errors : Nat
deriving DecidableEq

/-- `GitignoreParser(project_dir / '.gitignore')`: parse the project's
`.gitignore` if that file exists; a missing file, a directory of that
name, or a read failure leaves the pattern list empty (warn-and-continue;
the source may keep lines read before a mid-file failure, which the spec
documents as \"behaves as if zero patterns were loaded\"). -/
def loadGitignore (cs : List FsEntry) : List (String × Bool) :=
  match findEntry cs ".gitignore" with
  | some (FsEntry.file _ d) =>
      if d.textOk then parseGitignoreLines (splitLines d.text) else []
  | _ => []

/-- `UnifiedScanner._is_binary`: a zero byte in the first 1024 raw bytes,
or any failure to read them, classifies as binary. -/
def isBinary (d : Option FileData) : Bool :=
  match d with
  | none => true
  | some d => !d.probeOk || (d.bytes.take 1024).contains 0

/-- The body of the dump loop of `scan_directory` for one queued path:
binary files emit the skip marker and count as skipped; text files emit
the delimited content (with a newline appended when the content lacks
one) and add their character count to `total_size`; a failing text read
emits the error marker and counts an error. -/
def dumpFile (fs : List FsEntry) (st : ScanStats) (p : List String) :
    List String × ScanStats :=
  if isBinary (fsGet fs p) then
    (["--- " ++ joinPath p ++ " (BINARY - SKIPPED) ---\n\n"],
     { st with files_skipped := st.files_skipped + 1 })
  else
    match fsGet fs p with
    | some d =>
        if d.textOk then
          (["--- " ++ joinPath p ++ " ---\n\n", d.text]
            ++ (if strEndsWith d.text "\n" then [] else ["\n"])
            ++ ["\n" ++ eqBar 40 ++ " End of " ++ joinPath p ++ " " ++ eqBar 40 ++ "\n\n"],
           { st with files_processed := st.files_processed + 1,
                     total_size := st.total_size + d.text.data.length })
        else
          (["--- " ++ joinPath p ++ " (ERROR) ---\n",
            "Error reading file: " ++ d.errMsg ++ "\n\n"],
           { st with errors := st.errors + 1 })
    | none =>
        (["--- " ++ joinPath p ++ " (ERROR) ---\n", "Error reading file: \n\n"],
         { st with errors := st.errors + 1 })

/-- The dump loop over the sorted queue. -/
def dumpAll (fs : List FsEntry) : List (List String) → ScanStats → List String × ScanStats
  | [], st => ([], st)
  | p :: rest, st =>
      let r1 := dumpFile fs st p
      let r2 := dumpAll fs rest r1.2
      (r1.1 ++ r2.1, r2.2)

/-! ## Size formatting (`UnifiedScanner._format_size`)

The source divides a Python float by `1024.0` through the unit ladder and
prints with `%.2f`.  A byte count below `2^53` is exact in a double and
dividing by `1024` only shifts the exponent, so every intermediate value
is exactly the rational `n / 1024^k`; `%.2f` correctly rounds the
double's exact value to two decimals, ties to even.  The model therefore
computes in `ℚ`. -/

/-- Round to the nearest integer, ties to even (the rounding of `%.2f`
applied to an exactly represented value). -/
def roundHalfEven (q : ℚ) : ℤ :=
  let f := ⌊q⌋
  let r := q - f
  if r < 1 / 2 then f
  else if 1 / 2 < r then f + 1
  else if f % 2 = 0 then f else f + 1

/-- `%.2f` for the nonnegative values `_format_size` prints. -/
def fmt2 (q : ℚ) : String :=
  let n : Nat := (roundHalfEven (q * 100)).toNat
  toString (n / 100) ++ "." ++ (if n % 100 < 10 then "0" else "") ++ toString (n % 100)

def format_size_go : ℚ → List String → String
  | q, [] => fmt2 q ++ " TB"
  | q, u :: us => if q < 1024 then fmt2 q ++ " " ++ u else format_size_go (q / 1024) us

/-- `UnifiedScanner._format_size`. -/
def format_size (n : Nat) : String :=
  format_size_go (n : ℚ) ["B", "KB", "MB", "GB"]

/-! ## `scan_directory`: the full per-project output

The output is the list of chunks written to the output file, in order;
their concatenation is the file's contents. -/

def scanOutput (cfg : ProjectConfig) (projPath : String) (fs : List FsEntry) :
    List String × ScanStats :=
  let git := loadGitignore fs
  let files := pySort (fun a b => strLe (joinPath a) (joinPath b)) (queueList cfg git [] fs)
  let st0 : ScanStats := ⟨0, skippedCount cfg git [] fs, 0, 0⟩
  let header :=
    [eqBar 80 ++ "\n",
     " Project: " ++ cfg.name ++ "\n",
     " Type: " ++ cfg.project_type ++ "\n",
     " Path: " ++ projPath ++ "\n",
     " Files to process: " ++ toString files.length ++ "\n",
     eqBar 80 ++ "\n\n"]
  let structHeader := [eqBar 80 ++ "\n", " Project Structure\n", eqBar 80 ++ "\n\n"]
  let tree := (writeTree cfg git fs).map treeLineStr
  let contHeader := ["\n\n", eqBar 80 ++ "\n", " File Contents\n", eqBar 80 ++ "\n\n"]
  let dumped := dumpAll fs files st0
  let st := dumped.2
  let summary :=
    ["\n" ++ eqBar 80 ++ "\n", " Summary\n", eqBar 80 ++ "\n",
     "Files processed: " ++ toString st.files_processed ++ "\n",
     "Files skipped: " ++ toString st.files_skipped ++ "\n",
     "Total size: " ++ format_size st.total_size ++ "\n",
     "Errors: " ++ toString st.errors ++ "\n",
     eqBar 80 ++ "\n"]
  (header ++ structHeader ++ tree ++ contHeader ++ dumped.1 ++ summary, st)

/-! ## The driver (`main`)

The driver's interaction with the world outside the per-project scan is
abstracted to: does the input root exist, and, per project subdirectory,
does its scan complete without an exception. -/

structure DriverWorld where
  inputExists : Bool
  projects : List (String × Bool)

structure DriverResult where
  exitCode : Nat
  createdInput : Bool
  scannedCount : Nat
  attempted : List String
deriving DecidableEq

/-- `main`: a missing input root is created and the run returns `1`
before looking for projects; an input root without subdirectories
returns `1`; otherwise the projects are processed in sorted name order,
a failing scan is caught and skipped, and the exit code is `0` exactly
when at least one scan succeeded. -/
def mainRun (w : DriverWorld) : DriverResult :=
  if !w.inputExists then ⟨1, true, 0, []⟩
  else if w.projects.isEmpty then ⟨1, false, 0, []⟩
  else
    let sorted := pySort (fun a b => strLe a.1 b.1) w.projects
    let succ := (sorted.filter (fun p => p.2)).length
    ⟨if 0 < succ then 0 else 1, false, succ, sorted.map (fun p => p.1)⟩

/-! ## C9 infrastructure: order lemmas, canonical trees, well-formedness

The determinism claim compares two scans of the same unmodified
directory.  The operating system may list directory entries in any
order, so "the same directory" is captured by: both trees are well
formed (distinct, nonempty, slash-free names at every level — what a
real filesystem guarantees) and have the same canonical form (children
recursively sorted by name). -/

def goodName (n : String) : Bool := !n.data.isEmpty && !n.data.contains '/'

def nameLE (a b : FsEntry) : Bool := strLe (entryName a) (entryName b)

mutual

/-- Canonical form of one entry: directories get canonical children. -/
def canonE : FsEntry → FsEntry
  | FsEntry.file n d => FsEntry.file n d
  | FsEntry.dir n cs => FsEntry.dir n (canonL cs)
termination_by e => (sizeOf e, 1)
decreasing_by
  exact Prod.Lex.left _ _ (by simp [FsEntry.dir.sizeOf_spec]; try omega)

/-- `canonMap` is `List.map canonE` (spelled out for the termination
argument of the mutual recursion). -/
def canonMap : List FsEntry → List FsEntry
  | [] => []
  | c :: rest => canonE c :: canonMap rest
termination_by cs => (sizeOf cs, 0)
decreasing_by
  · exact Prod.Lex.left _ _ (by simp [List.cons.sizeOf_spec]; try omega)
  · exact Prod.Lex.left _ _ (by simp [List.cons.sizeOf_spec]; try omega)

/-- Canonical form of a directory listing: canonical entries, sorted by
name. -/
def canonL (cs : List FsEntry) : List FsEntry := pySort nameLE (canonMap cs)
termination_by (sizeOf cs, 1)
decreasing_by
  exact Prod.Lex.right _ (by omega)

end

mutual

/-- Well-formedness of one entry: a good name, and for directories a
well-formed listing. -/
def wellFormedE : FsEntry → Bool
  | FsEntry.file n _ => goodName n
  | FsEntry.dir n cs => goodName n && wellFormedL cs

/-- Well-formedness of a directory listing: every entry well formed and
no name repeated. -/
def wellFormedL : List FsEntry → Bool
  | [] => true
  | c :: rest =>
      wellFormedE c && !((rest.map entryName).contains (entryName c)) && wellFormedL rest

end

/-! ## Verification theorems -/

theorem spanUntilRB_length :
    ∀ (cs s r : List Char), spanUntilRB cs = some (s, r) → r.length < cs.length := by
  intro cs
  induction cs with
  | nil => intro s r h; simp [spanUntilRB] at h
  | cons c rest ih =>
      intro s r h
      simp only [spanUntilRB] at h
      split at h
      · simp only [Option.some.injEq, Prod.mk.injEq] at h
        obtain ⟨h1, h2⟩ := h
        subst h2; simp
      · cases hsp : spanUntilRB rest with
        | none => rw [hsp] at h; simp at h
        | some pr =>
            obtain ⟨s', r'⟩ := pr
            rw [hsp] at h
            simp only [Option.some.injEq, Prod.mk.injEq] at h
            have := ih s' r' hsp
            obtain ⟨h1, h2⟩ := h
            subst h2
            simp; omega

theorem scanBracket_length {cs stuff rest : List Char}
    (h : scanBracket cs = some (stuff, rest)) : rest.length < cs.length := by
  cases cs with
  | nil => simp [scanBracket] at h
  | cons a rest₁ =>
      simp only [scanBracket] at h
      by_cases ha : a == '!'
      · rw [if_pos ha] at h
        cases rest₁ with
        | nil => simp at h
        | cons b rest₂ =>
            dsimp only at h
            by_cases hb : b == ']'
            · rw [if_pos hb] at h
              rw [Option.map_eq_some'] at h
              obtain ⟨⟨s', r''⟩, hsp, hf⟩ := h
              simp only [Prod.mk.injEq] at hf
              have := spanUntilRB_length rest₂ s' r'' hsp
              obtain ⟨h1, h2⟩ := hf
              subst h2
              simp; omega
            · rw [if_neg hb] at h
              rw [Option.map_eq_some'] at h
              obtain ⟨⟨s', r''⟩, hsp, hf⟩ := h
              simp only [Prod.mk.injEq] at hf
              have := spanUntilRB_length (b :: rest₂) s' r'' hsp
              obtain ⟨h1, h2⟩ := hf
              subst h2
              simp at this ⊢; omega
      · rw [if_neg ha] at h
        by_cases ha2 : a == ']'
        · rw [if_pos ha2] at h
          rw [Option.map_eq_some'] at h
          obtain ⟨⟨s', r''⟩, hsp, hf⟩ := h
          simp only [Prod.mk.injEq] at hf
          have := spanUntilRB_length rest₁ s' r'' hsp
          obtain ⟨h1, h2⟩ := hf
          subst h2
          simp; omega
        · rw [if_neg ha2] at h
          exact spanUntilRB_length _ _ _ h

/-- The fuel bound of `globMatchF` is irrelevant as long as it exceeds
`ps.length + s.length`; hence `globMatch` is the unbounded recursion. -/
theorem globMatchF_stable :
    ∀ (f₁ f₂ : Nat) (ps s : List Char), ps.length + s.length < f₁ →
      ps.length + s.length < f₂ → globMatchF f₁ ps s = globMatchF f₂ ps s := by
  intro f₁
  induction f₁ using Nat.strong_induction_on with
  | _ f₁ ih =>
      intro f₂ ps s h₁ h₂
      cases f₁ with
      | zero => omega
      | succ g₁ =>
          cases f₂ with
          | zero => omega
          | succ g₂ =>
              have key : ∀ (ps₀ s₀ : List Char), ps₀.length + s₀.length < g₁ →
                  ps₀.length + s₀.length < g₂ →
                  globMatchF g₁ ps₀ s₀ = globMatchF g₂ ps₀ s₀ :=
                fun ps₀ s₀ hh₁ hh₂ => ih g₁ (Nat.lt_succ_self g₁) g₂ ps₀ s₀ hh₁ hh₂
              simp only [globMatchF]
              cases ps with
              | nil => rfl
              | cons p ps' =>
                  dsimp only
                  simp only [List.length_cons] at h₁ h₂
                  by_cases hstar : p == '*'
                  · rw [if_pos hstar, if_pos hstar]
                    rw [key ps' s (by omega) (by omega)]
                    cases s with
                    | nil => rfl
                    | cons c s' =>
                        simp only [List.length_cons] at h₁ h₂
                        dsimp only
                        rw [key (p :: ps') s' (by simp; omega) (by simp; omega)]
                  · rw [if_neg hstar, if_neg hstar]
                    by_cases hq : p == '?'
                    · rw [if_pos hq, if_pos hq]
                      cases s with
                      | nil => rfl
                      | cons c s' =>
                          simp only [List.length_cons] at h₁ h₂
                          dsimp only
                          rw [key ps' s' (by omega) (by omega)]
                    · rw [if_neg hq, if_neg hq]
                      by_cases hlb : p == '['
                      · rw [if_pos hlb, if_pos hlb]
                        cases hsb : scanBracket ps' with
                        | none =>
                            simp only [hsb]
                            cases s with
                            | nil => rfl
                            | cons c s' =>
                                simp only [List.length_cons] at h₁ h₂
                                dsimp only
                                rw [key ps' s' (by omega) (by omega)]
                        | some pr =>
                            obtain ⟨stuff, rest⟩ := pr
                            simp only [hsb]
                            cases s with
                            | nil => rfl
                            | cons c s' =>
                                simp only [List.length_cons] at h₁ h₂
                                have hr := scanBracket_length hsb
                                dsimp only
                                rw [key rest s' (by omega) (by omega)]
                      · rw [if_neg hlb, if_neg hlb]
                        cases s with
                        | nil => rfl
                        | cons c s' =>
                            simp only [List.length_cons] at h₁ h₂
                            dsimp only
                            rw [key ps' s' (by omega) (by omega)]

theorem gitFold_no_match (path : String) :
    ∀ (ps : List (String × Bool)) (b : Bool),
      (∀ pn ∈ ps, gitPatMatches pn.1 path = false) →
      ps.foldl (fun ignored pn => if gitPatMatches pn.1 path then !pn.2 else ignored) b = b := by
  intro ps
  induction ps with
  | nil => intro b _; rfl
  | cons q rest ih =>
      intro b hall
      simp only [List.foldl_cons]
      rw [hall q (by simp)]
      simp only [Bool.false_eq_true, if_false]
      exact ih b (fun pn hpn => hall pn (by simp [hpn]))

theorem gitFold_last_match (path : String) :
    ∀ (ps : List (String × Bool)) (b : Bool) (i : Nat) (h : i < ps.length),
      gitPatMatches ps[i].1 path = true →
      (∀ (j : Nat) (hj : j < ps.length), i < j → gitPatMatches ps[j].1 path = false) →
      ps.foldl (fun ignored pn => if gitPatMatches pn.1 path then !pn.2 else ignored) b
        = !ps[i].2 := by
  intro ps
  induction ps with
  | nil => intro b i h; simp at h
  | cons q rest ih =>
      intro b i h hm hafter
      cases i with
      | zero =>
          simp only [List.getElem_cons_zero] at hm ⊢
          simp only [List.foldl_cons]
          rw [hm]
          simp only [if_true]
          apply gitFold_no_match
          intro pn hpn
          obtain ⟨⟨j, hj⟩, hget⟩ := List.mem_iff_get.mp hpn
          rw [List.get_eq_getElem] at hget
          have := hafter (j + 1) (by simpa using hj) (by omega)
          rw [List.getElem_cons_succ] at this
          rw [hget] at this
          exact this
      | succ i' =>
          simp only [List.getElem_cons_succ] at hm ⊢
          simp only [List.foldl_cons]
          exact ih _ i' (by simpa using h) hm
            (fun j hj hij => by
              have := hafter (j + 1) (by simpa using hj) (by omega)
              simpa using this)

/-- C1: `should_ignore` visits all loaded patterns in file order; each
pattern that glob-matches the full relative path or its base name
overwrites the running flag with `not is_negation`, so the last matching
pattern determines the result; in particular a `.gitignore` consisting of
the line `foo.txt` followed by `!foo.txt` leaves `foo.txt` un-ignored. -/
theorem claim_C1 :
    (∀ (ps : List (String × Bool)) (path : String) (i : Nat) (h : i < ps.length),
        gitPatMatches ps[i].1 path = true →
        (∀ (j : Nat) (hj : j < ps.length), i < j → gitPatMatches ps[j].1 path = false) →
        gitShouldIgnore ps path = !ps[i].2)
    ∧ gitShouldIgnore (parseGitignoreLines ["foo.txt", "!foo.txt"]) "foo.txt" = false := by
  constructor
  · intro ps path i h hm hafter
    have hne : ps.isEmpty = false := by
      cases ps with
      | nil => simp at h
      | cons q rest => rfl
    unfold gitShouldIgnore
    rw [hne]
    simp only [Bool.false_eq_true, if_false]
    exact gitFold_last_match path ps false i h hm hafter
  · decide

/-- Witness for C1: the general part applied to the two-pattern list that
the example `.gitignore` parses to, at the last (negation) pattern. -/
theorem claim_C1_witness :
    (gitPatMatches "foo.txt" "foo.txt" = true) ∧
    gitShouldIgnore [("foo.txt", false), ("foo.txt", true)] "foo.txt" = false :=
  ⟨by decide,
    claim_C1.1 [("foo.txt", false), ("foo.txt", true)] "foo.txt" 1 (by decide)
      (by decide)
      (fun j hj hij => by
        simp only [List.length_cons, List.length_nil] at hj
        exact absurd hij (by omega))⟩

/-! ## Sorting lemmas -/

theorem pyInsert_perm (le : α → α → Bool) (x : α) (l : List α) :
    List.Perm (pyInsert le x l) (x :: l) := by
  induction l with
  | nil => exact List.Perm.refl _
  | cons y ys ih =>
      simp only [pyInsert]
      split
      · exact List.Perm.refl _
      · exact (List.Perm.cons y ih).trans (List.Perm.swap x y ys)

theorem pySort_perm (le : α → α → Bool) (l : List α) :
    List.Perm (pySort le l) l := by
  induction l with
  | nil => exact List.Perm.refl _
  | cons x xs ih =>
      simp only [pySort]
      exact (pyInsert_perm le x (pySort le xs)).trans (List.Perm.cons x ih)

theorem mem_pySort {le : α → α → Bool} {l : List α} {x : α} :
    x ∈ pySort le l ↔ x ∈ l := (pySort_perm le l).mem_iff

/-! ## Claim theorems (configuration, driver, formatting, detection) -/

/-- C4: when loading `.scanner-config.json` fails before the merges run
(the file cannot be opened or read, or `json.load` rejects it — the
`none` input of `load_from_file`), the function warns (second component
`true`) and returns the configuration with every field exactly as it was;
being a total function, it aborts nothing. -/
theorem claim_C4 :
    (∀ base : ProjectConfig, load_from_file none base = (base, true)) ∧
    (∀ base : ProjectConfig,
       (load_from_file none base).1.code_extensions = base.code_extensions ∧
       (load_from_file none base).1.ignore_dirs = base.ignore_dirs ∧
       (load_from_file none base).1.ignore_files = base.ignore_files ∧
       (load_from_file none base).1.ignore_extensions = base.ignore_extensions ∧
       (load_from_file none base).1.target_subdirs = base.target_subdirs ∧
       (load_from_file none base).1.max_file_size = base.max_file_size ∧
       (load_from_file none base).1.include_hidden = base.include_hidden ∧
       (load_from_file none base).1.name = base.name ∧
       (load_from_file none base).1.project_type = base.project_type ∧
       (load_from_file none base).1.config_files = base.config_files ∧
       (load_from_file none base).1.ignore_patterns = base.ignore_patterns) :=
  ⟨fun _ => rfl,
   fun _ => ⟨rfl, rfl, rfl, rfl, rfl, rfl, rfl, rfl, rfl, rfl, rfl⟩⟩

/-- C6: the exit status is `0` iff the input root exists and at least one
project's scan succeeds; a missing root is created and the run returns
`1` with nothing attempted; an existing root with no subdirectories
returns `1`; and when every scan fails the status is `1`. -/
theorem claim_C6 :
    (∀ w : DriverWorld, (mainRun w).exitCode = 0 ↔
        (w.inputExists = true ∧ ∃ p ∈ w.projects, p.2 = true)) ∧
    (∀ w : DriverWorld, w.inputExists = false →
        mainRun w = ⟨1, true, 0, []⟩) ∧
    (∀ w : DriverWorld, w.inputExists = true → w.projects = [] →
        mainRun w = ⟨1, false, 0, []⟩) ∧
    (∀ w : DriverWorld, w.inputExists = true →
        (∀ p ∈ w.projects, p.2 = false) → (mainRun w).exitCode = 1) := by
  refine ⟨?_, ?_, ?_, ?_⟩
  · intro w
    unfold mainRun
    cases hex : w.inputExists with
    | false => simp [hex]
    | true =>
        simp only [hex, Bool.not_true, Bool.false_eq_true, if_false]
        cases hps : w.projects with
        | nil => simp
        | cons p ps =>
            simp only [List.isEmpty_cons, Bool.false_eq_true, if_false]
            have hperm := pySort_perm (fun a b : String × Bool => strLe a.1 b.1) (p :: ps)
            constructor
            · intro h0
              refine ⟨trivial, ?_⟩
              by_cases hpos :
                  0 < ((pySort (fun a b => strLe a.1 b.1) (p :: ps)).filter (fun q => q.2)).length
              · obtain ⟨q, hq⟩ := List.exists_mem_of_length_pos hpos
                have hq' := List.mem_filter.mp hq
                exact ⟨q, hperm.mem_iff.mp hq'.1, hq'.2⟩
              · simp only [hpos, if_false] at h0
                exact absurd h0 (by norm_num)
            · rintro ⟨-, q, hq, hq2⟩
              have : q ∈ (pySort (fun a b : String × Bool => strLe a.1 b.1) (p :: ps)).filter
                  (fun r => r.2) :=
                List.mem_filter.mpr ⟨hperm.mem_iff.mpr hq, hq2⟩
              have hpos := List.length_pos_of_mem this
              simp [hpos]
  · intro w h
    unfold mainRun
    simp [h]
  · intro w h1 h2
    unfold mainRun
    simp [h1, h2]
  · intro w h1 hall
    unfold mainRun
    simp only [h1, Bool.not_true, Bool.false_eq_true, if_false]
    cases hps : w.projects with
    | nil => simp
    | cons p ps =>
        simp only [List.isEmpty_cons, Bool.false_eq_true, if_false]
        have hperm := pySort_perm (fun a b : String × Bool => strLe a.1 b.1) (p :: ps)
        have hnil : (pySort (fun a b : String × Bool => strLe a.1 b.1) (p :: ps)).filter
            (fun q => q.2) = [] := by
          rw [List.filter_eq_nil_iff]
          intro q hq
          have := hall q (by rw [hps]; exact hperm.mem_iff.mp hq)
          simp [this]
        simp [hnil]

/-- Witness for C6: the missing-root branch at a concrete world. -/
theorem claim_C6_witness :
    (DriverWorld.mk false [("p", true)]).inputExists = false ∧
    mainRun (DriverWorld.mk false [("p", true)]) = ⟨1, true, 0, []⟩ :=
  ⟨rfl, claim_C6.2.1 (DriverWorld.mk false [("p", true)]) rfl⟩

/-- C7: `format_size` prints two decimals with binary-prefixed units,
capping the ladder at terabytes: the three concrete values of the spec,
and in general each bucket `[1024^k, 1024^(k+1))` is divided down `k`
times and printed with the `k`-th unit, everything from `1024^4` up being
reported in TB. -/
theorem claim_C7 :
    format_size 1536 = "1.50 KB" ∧
    format_size 0 = "0.00 B" ∧
    format_size (1024 ^ 3) = "1.00 GB" ∧
    (∀ n : Nat, n < 1024 → format_size n = fmt2 (n : ℚ) ++ " B") ∧
    (∀ n : Nat, 1024 ≤ n → n < 1024 ^ 2 →
        format_size n = fmt2 ((n : ℚ) / 1024) ++ " KB") ∧
    (∀ n : Nat, 1024 ^ 2 ≤ n → n < 1024 ^ 3 →
        format_size n = fmt2 ((n : ℚ) / 1024 ^ 2) ++ " MB") ∧
    (∀ n : Nat, 1024 ^ 3 ≤ n → n < 1024 ^ 4 →
        format_size n = fmt2 ((n : ℚ) / 1024 ^ 3) ++ " GB") ∧
    (∀ n : Nat, 1024 ^ 4 ≤ n →
        format_size n = fmt2 ((n : ℚ) / 1024 ^ 4) ++ " TB") := by
  have hpos : (0 : ℚ) < 1024 := by norm_num
  refine ⟨by norm_num [format_size, format_size_go, fmt2, roundHalfEven]; rfl, by norm_num [format_size, format_size_go, fmt2, roundHalfEven]; rfl, by norm_num [format_size, format_size_go, fmt2, roundHalfEven]; rfl, ?_, ?_, ?_, ?_, ?_⟩
  · intro n h
    have hu : (n : ℚ) < 1024 := by exact_mod_cast h
    simp only [format_size, format_size_go]
    rw [if_pos hu, String.append_assoc]
    rfl
  · intro n h1 h2
    have hl : (1024 : ℚ) ≤ (n : ℚ) := by exact_mod_cast h1
    have hu : (n : ℚ) < 1024 ^ 2 := by exact_mod_cast h2
    simp only [format_size, format_size_go]
    rw [if_neg (not_lt.mpr hl),
        if_pos (by rw [div_lt_iff₀ hpos]; nlinarith [hu]),
        String.append_assoc]
    rfl
  · intro n h1 h2
    have hl : (1024 : ℚ) ^ 2 ≤ (n : ℚ) := by exact_mod_cast h1
    have hu : (n : ℚ) < 1024 ^ 3 := by exact_mod_cast h2
    simp only [format_size, format_size_go]
    rw [if_neg (not_lt.mpr (by nlinarith [hl])),
        if_neg (not_lt.mpr (by rw [le_div_iff₀ hpos]; nlinarith [hl])),
        if_pos (by rw [div_lt_iff₀ hpos, div_lt_iff₀ hpos]; nlinarith [hu]),
        div_div, String.append_assoc]
    norm_num
    rfl
  · intro n h1 h2
    have hl : (1024 : ℚ) ^ 3 ≤ (n : ℚ) := by exact_mod_cast h1
    have hu : (n : ℚ) < 1024 ^ 4 := by exact_mod_cast h2
    simp only [format_size, format_size_go]
    rw [if_neg (not_lt.mpr (by nlinarith [hl])),
        if_neg (not_lt.mpr (by rw [le_div_iff₀ hpos]; nlinarith [hl])),
        if_neg (not_lt.mpr (by rw [le_div_iff₀ hpos, le_div_iff₀ hpos]; nlinarith [hl])),
        if_pos (by
          rw [div_lt_iff₀ hpos, div_lt_iff₀ hpos, div_lt_iff₀ hpos]
          nlinarith [hu]),
        div_div, div_div, String.append_assoc]
    norm_num
    rfl
  · intro n h1
    have hl : (1024 : ℚ) ^ 4 ≤ (n : ℚ) := by exact_mod_cast h1
    simp only [format_size, format_size_go]
    rw [if_neg (not_lt.mpr (by nlinarith [hl])),
        if_neg (not_lt.mpr (by rw [le_div_iff₀ hpos]; nlinarith [hl])),
        if_neg (not_lt.mpr (by rw [le_div_iff₀ hpos, le_div_iff₀ hpos]; nlinarith [hl])),
        if_neg (not_lt.mpr (by
          rw [le_div_iff₀ hpos, le_div_iff₀ hpos, le_div_iff₀ hpos]
          nlinarith [hl])),
        div_div, div_div, div_div]
    norm_num

/-- Witness for C7's general buckets: 2048 bytes land in the KB bucket. -/
theorem claim_C7_witness :
    (1024 ≤ 2048 ∧ 2048 < 1024 ^ 2) ∧
    format_size 2048 = fmt2 ((2048 : ℚ) / 1024) ++ " KB" :=
  ⟨⟨by norm_num, by norm_num⟩,
   claim_C7.2.2.2.2.1 2048 (by norm_num) (by norm_num)⟩

/-- Labels filtered from a labelled table in order form a sublist of the
table's label column. -/
theorem filterMap_if_sublist {β : Type} (P : String × β → Prop) [DecidablePred P]
    (l : List (String × β)) :
    List.Sublist
      (l.filterMap (fun tp => if P tp then some tp.1 else none))
      (l.map Prod.fst) := by
  induction l with
  | nil => simp
  | cons a l ih =>
      simp only [List.filterMap_cons, List.map_cons]
      by_cases hP : P a
      · rw [if_pos hP]
        exact List.Sublist.cons₂ _ ih
      · rw [if_neg hP]
        exact List.Sublist.cons _ ih

/-- C8: `detect_project_types` returns exactly the table labels with at
least one marker hit, in the table's declared order (a sublist of the
label column), `["generic"]` exactly when no label matches, and a missing
directory (`none`) yields no matches and the `["generic"]` answer — the
existence checks are total, nothing is raised. -/
theorem claim_C8 :
    (∀ (d : Option (List FsEntry)) (label : String),
        label ∈ detect_project_types d ↔
          ((∃ pats, (label, pats) ∈ DETECTION_PATTERNS ∧
              1 ≤ pats.countP (fun pat => markerHit d pat))
            ∨ (label = "generic" ∧
               ∀ tp ∈ DETECTION_PATTERNS,
                 tp.2.countP (fun pat => markerHit d pat) = 0)))
    ∧ (∀ d, detect_project_types d = ["generic"] ↔
        ∀ tp ∈ DETECTION_PATTERNS, tp.2.countP (fun pat => markerHit d pat) = 0)
    ∧ (∀ d, List.Sublist (detect_project_types d) (DETECTION_PATTERNS.map Prod.fst)
        ∨ detect_project_types d = ["generic"])
    ∧ detect_project_types none = ["generic"] := by
  have hgen : "generic" ∉ DETECTION_PATTERNS.map Prod.fst := by decide
  have hnilIff : ∀ d,
      (DETECTION_PATTERNS.filterMap (fun tp =>
        if 0 < tp.2.countP (fun pat => markerHit d pat) then some tp.1 else none)) = []
      ↔ ∀ tp ∈ DETECTION_PATTERNS, tp.2.countP (fun pat => markerHit d pat) = 0 := by
    intro d
    rw [List.filterMap_eq_nil_iff]
    constructor
    · intro hall tp htp
      have := hall tp htp
      by_contra hne
      rw [if_pos (Nat.pos_of_ne_zero hne)] at this
      exact Option.some_ne_none _ this
    · intro hall tp htp
      rw [hall tp htp]
      simp
  refine ⟨?_, ?_, ?_, by decide⟩
  · intro d label
    unfold detect_project_types
    by_cases hE : (DETECTION_PATTERNS.filterMap (fun tp =>
        if 0 < tp.2.countP (fun pat => markerHit d pat) then some tp.1 else none)) = []
    · rw [hE]
      simp only [List.isEmpty_nil, if_true, List.mem_singleton]
      constructor
      · intro hl
        exact Or.inr ⟨hl, (hnilIff d).mp hE⟩
      · rintro (⟨pats, hmem, hcnt⟩ | ⟨hl, -⟩)
        · have hz : pats.countP (fun pat => markerHit d pat) = 0 :=
            (hnilIff d).mp hE (label, pats) hmem
          omega
        · exact hl
    · rw [if_neg (by simpa [List.isEmpty_iff] using hE)]
      rw [List.mem_filterMap]
      constructor
      · rintro ⟨tp, htp, hif⟩
        by_cases hc : 0 < tp.2.countP (fun pat => markerHit d pat)
        · rw [if_pos hc] at hif
          obtain rfl : tp.1 = label := by injection hif
          exact Or.inl ⟨tp.2, htp, hc⟩
        · rw [if_neg hc] at hif
          simp at hif
      · rintro (⟨pats, hmem, hcnt⟩ | ⟨rfl, hall⟩)
        · refine ⟨(label, pats), hmem, ?_⟩
          have hc : 0 < pats.countP (fun pat => markerHit d pat) := by omega
          rw [if_pos hc]
        · exact absurd ((hnilIff d).mpr hall) hE
  · intro d
    unfold detect_project_types
    by_cases hE : (DETECTION_PATTERNS.filterMap (fun tp =>
        if 0 < tp.2.countP (fun pat => markerHit d pat) then some tp.1 else none)) = []
    · rw [hE]
      simp only [List.isEmpty_nil, if_true, true_iff]
      exact fun tp htp => (hnilIff d).mp hE tp htp
    · rw [if_neg (by simpa [List.isEmpty_iff] using hE)]
      constructor
      · intro heq
        exfalso
        have hmm : "generic" ∈ DETECTION_PATTERNS.filterMap (fun tp =>
            if 0 < tp.2.countP (fun pat => markerHit d pat) then some tp.1 else none) := by
          rw [heq]; simp
        obtain ⟨tp, htp, hif⟩ := List.mem_filterMap.mp hmm
        by_cases hc : 0 < tp.2.countP (fun pat => markerHit d pat)
        · rw [if_pos hc] at hif
          have : tp.1 = "generic" := by injection hif
          exact hgen (List.mem_map.mpr ⟨tp, htp, this⟩)
        · rw [if_neg hc] at hif
          simp at hif
      · intro hall
        exact absurd ((hnilIff d).mpr hall) hE
  · intro d
    unfold detect_project_types
    by_cases hE : (DETECTION_PATTERNS.filterMap (fun tp =>
        if 0 < tp.2.countP (fun pat => markerHit d pat) then some tp.1 else none)) = []
    · rw [hE]
      simp
    · rw [if_neg (by simpa [List.isEmpty_iff] using hE)]
      exact Or.inl (filterMap_if_sublist _ _)

/-! ## Walk and tree lemmas -/

theorem pyInsert_sizeOf [SizeOf α] (le : α → α → Bool) (x : α) (l : List α) :
    sizeOf (pyInsert le x l) = 1 + sizeOf x + sizeOf l := by
  induction l with
  | nil => simp [pyInsert]
  | cons y ys ih =>
      simp only [pyInsert]
      split
      · simp [List.cons.sizeOf_spec]
        try omega
      · simp [List.cons.sizeOf_spec, ih]
        try omega

theorem pySort_sizeOf [SizeOf α] (le : α → α → Bool) (l : List α) :
    sizeOf (pySort le l) = sizeOf l := by
  induction l with
  | nil => rfl
  | cons x xs ih => simp [pySort, pyInsert_sizeOf, ih, List.cons.sizeOf_spec]

/-- `should_ignore_dir` returning false in particular means the name is
not in `ignore_dirs`. -/
theorem not_mem_ignore_dirs_of_not_ignored {cfg : ProjectConfig}
    {git : List (String × Bool)} {relStr dirname : String}
    (h : shouldIgnoreDir cfg git relStr dirname = false) :
    dirname ∉ cfg.ignore_dirs := by
  intro hmem
  unfold shouldIgnoreDir at h
  split at h
  · exact Bool.true_eq_false.mp (h ▸ rfl) |>.elim
  · split at h
    · exact absurd h (by simp)
    · split at h
      · exact absurd h (by simp)
      · rename_i h3
        exact h3 (by simpa [List.elem_iff] using hmem)

/-- Every queued path ends in a file name that passed the ignore check
(with its actual data) and the include check. -/
theorem queue_spec (cfg : ProjectConfig) (git : List (String × Bool)) :
    ∀ (rel : List String) (cs : List FsEntry) (p : List String),
      p ∈ queueList cfg git rel cs →
      ∃ n d, p.getLast? = some n ∧
        shouldIgnoreFile cfg git (joinPath p) n d = false ∧
        shouldIncludeFile cfg n = true
  | rel, [], p => by simp [queueList]
  | rel, FsEntry.file n d :: rest, p => by
      intro hp
      rw [queueList] at hp
      rcases List.mem_append.mp hp with h1 | h2
      · by_cases hig : shouldIgnoreFile cfg git (joinPath (rel ++ [n])) n d
        · rw [if_pos hig] at h1
          simp at h1
        · rw [if_neg hig] at h1
          by_cases hinc : shouldIncludeFile cfg n
          · rw [if_pos hinc] at h1
            have hp' : p = rel ++ [n] := by simpa using h1
            subst hp'
            exact ⟨n, d, List.getLast?_concat rel,
              Bool.eq_false_iff.mpr hig, hinc⟩
          · rw [if_neg hinc] at h1
            simp at h1
      · exact queue_spec cfg git rel rest p h2
  | rel, FsEntry.dir m cs' :: rest, p => by
      intro hp
      rw [queueList] at hp
      rcases List.mem_append.mp hp with h1 | h2
      · by_cases hig : shouldIgnoreDir cfg git (joinPath (rel ++ [m])) m
        · rw [if_pos hig] at h1
          simp at h1
        · rw [if_neg hig] at h1
          exact queue_spec cfg git (rel ++ [m]) cs' p h1
      · exact queue_spec cfg git rel rest p h2
termination_by rel cs p => sizeOf cs

/-- Every queued path extends the directory's relative path by at least
one component, and none of the new intermediate components (the
directories descended through) is in `ignore_dirs`. -/
theorem queue_shape (cfg : ProjectConfig) (git : List (String × Bool)) :
    ∀ (rel : List String) (cs : List FsEntry) (p : List String),
      p ∈ queueList cfg git rel cs →
      ∃ s, p = rel ++ s ∧ s ≠ [] ∧ ∀ c ∈ s.dropLast, c ∉ cfg.ignore_dirs
  | rel, [], p => by simp [queueList]
  | rel, FsEntry.file n d :: rest, p => by
      intro hp
      rw [queueList] at hp
      rcases List.mem_append.mp hp with h1 | h2
      · by_cases hig : shouldIgnoreFile cfg git (joinPath (rel ++ [n])) n d
        · rw [if_pos hig] at h1
          simp at h1
        · rw [if_neg hig] at h1
          by_cases hinc : shouldIncludeFile cfg n
          · rw [if_pos hinc] at h1
            have hp' : p = rel ++ [n] := by simpa using h1
            exact ⟨[n], hp', by simp, by simp⟩
          · rw [if_neg hinc] at h1
            simp at h1
      · exact queue_shape cfg git rel rest p h2
  | rel, FsEntry.dir m cs' :: rest, p => by
      intro hp
      rw [queueList] at hp
      rcases List.mem_append.mp hp with h1 | h2
      · by_cases hig : shouldIgnoreDir cfg git (joinPath (rel ++ [m])) m
        · rw [if_pos hig] at h1
          simp at h1
        · rw [if_neg hig] at h1
          obtain ⟨s', hs'eq, hs'ne, hs'mem⟩ := queue_shape cfg git (rel ++ [m]) cs' p h1
          refine ⟨m :: s', by simpa using hs'eq, by simp, ?_⟩
          intro c hc
          cases s' with
          | nil => exact absurd rfl hs'ne
          | cons a s'' =>
              rw [List.dropLast_cons₂] at hc
              rcases List.mem_cons.mp hc with hcm | hcs
              · subst hcm
                exact not_mem_ignore_dirs_of_not_ignored (Bool.eq_false_iff.mpr hig)
              · exact hs'mem c hcs
      · exact queue_shape cfg git rel rest p h2
termination_by rel cs p => sizeOf cs

/-- Every directory line the tree renderer emits names a directory that
passed `should_ignore_dir`; in particular its name is not in
`ignore_dirs`. -/
theorem tree_spec (cfg : ProjectConfig) (git : List (String × Bool)) :
    ∀ (rel : List String) (pre : String) (cs : List FsEntry) (t : TreeLine),
      t ∈ renderItems cfg git rel pre cs → t.isDir = true →
      t.name ∉ cfg.ignore_dirs
  | rel, pre, [], t => by simp [renderItems]
  | rel, pre, FsEntry.file n d :: rest, t => by
      intro ht hd
      rw [renderItems] at ht
      rcases List.mem_append.mp ht with h1 | h2
      · by_cases hig : shouldIgnoreFile cfg git (joinPath (rel ++ [n])) n d
        · rw [if_pos hig] at h1
          simp at h1
        · rw [if_neg hig] at h1
          have ht' : t = ⟨pre, rest.isEmpty, n, false⟩ := by simpa using h1
          rw [ht'] at hd
          simp at hd
      · exact tree_spec cfg git rel pre rest t h2 hd
  | rel, pre, FsEntry.dir m cs' :: rest, t => by
      intro ht hd
      rw [renderItems] at ht
      rcases List.mem_append.mp ht with h1 | h2
      · by_cases hig : shouldIgnoreDir cfg git (joinPath (rel ++ [m])) m
        · rw [if_pos hig] at h1
          simp at h1
        · rw [if_neg hig] at h1
          rcases List.mem_cons.mp h1 with hhd | htl
          · rw [hhd]
            exact not_mem_ignore_dirs_of_not_ignored (Bool.eq_false_iff.mpr hig)
          · exact tree_spec cfg git (rel ++ [m])
              (pre ++ (if rest.isEmpty then "    " else "│   "))
              (sortChildren cs') t htl hd
      · exact tree_spec cfg git rel pre rest t h2 hd
termination_by rel pre cs t => sizeOf cs
decreasing_by
  all_goals try simp only [sortChildren, pySort_sizeOf]
  all_goals simp [List.cons.sizeOf_spec, FsEntry.dir.sizeOf_spec]
  all_goals try omega

/-- C2: a directory whose name is in `ignore_dirs` never shows up as a
directory entry of the rendered tree, at any depth, and no queued
(hence dumped) file lies below one: every intermediate component a
queued path adds beyond the walk's base path avoids `ignore_dirs` —
the walk prunes those directories before descending (the dump loop runs
over a sorted permutation of exactly this queue). -/
theorem claim_C2 :
    (∀ (cfg : ProjectConfig) (git : List (String × Bool)) (rel : List String)
        (pre : String) (cs : List FsEntry) (t : TreeLine) (N : String),
        N ∈ cfg.ignore_dirs → t ∈ renderItems cfg git rel pre cs →
        t.isDir = true → t.name ≠ N) ∧
    (∀ (cfg : ProjectConfig) (git : List (String × Bool)) (rel : List String)
        (cs : List FsEntry) (p : List String) (N : String),
        N ∈ cfg.ignore_dirs → p ∈ queueList cfg git rel cs →
        ∃ s, p = rel ++ s ∧ s ≠ [] ∧ ∀ c ∈ s.dropLast, c ≠ N) := by
  constructor
  · intro cfg git rel pre cs t N hN ht hd heq
    exact tree_spec cfg git rel pre cs t ht hd (heq ▸ hN)
  · intro cfg git rel cs p N hN hp
    obtain ⟨s, hseq, hsne, hmem⟩ := queue_shape cfg git rel cs p hp
    exact ⟨s, hseq, hsne, fun c hc hceq => hmem c hc (hceq ▸ hN)⟩

/-- `should_ignore_file` returning false in particular means the
lowercased extension is not in `ignore_extensions`. -/
theorem not_mem_ignore_ext_of_not_ignored {cfg : ProjectConfig}
    {git : List (String × Bool)} {relStr filename : String} {d : FileData}
    (h : shouldIgnoreFile cfg git relStr filename d = false) :
    strLower (pathSuffix filename) ∉ cfg.ignore_extensions := by
  intro hmem
  unfold shouldIgnoreFile at h
  by_cases h1 : !cfg.include_hidden && strStartsWith filename "."
  · rw [if_pos h1] at h
    simp at h
  · rw [if_neg h1] at h
    by_cases h2 : gitShouldIgnore git relStr
    · rw [if_pos h2] at h
      simp at h
    · rw [if_neg h2] at h
      by_cases h3 : cfg.ignore_files.any (fun pat => fnmatch filename pat)
      · rw [if_pos h3] at h
        simp at h
      · rw [if_neg h3] at h
        rw [if_pos (show cfg.ignore_extensions.contains
              (strLower (pathSuffix filename)) = true from by
            simpa [List.elem_iff] using hmem)] at h
        simp at h

/-- C3: a file whose lowercased extension is in `ignore_extensions` is
always ignored by `should_ignore_file`, regardless of the same extension
also sitting in `code_extensions` (the scan consults the ignore predicate
first); consequently no such file is ever queued, and only queued files
have content dumped.  The concrete conjunct shows a `.png` under the
default config with `.png` also added to `code_extensions`. -/
theorem claim_C3 :
    (∀ (cfg : ProjectConfig) (git : List (String × Bool)) (relStr filename : String)
        (d : FileData),
        strLower (pathSuffix filename) ∈ cfg.ignore_extensions →
        shouldIgnoreFile cfg git relStr filename d = true) ∧
    (∀ (cfg : ProjectConfig) (git : List (String × Bool)) (rel : List String)
        (cs : List FsEntry) (p : List String) (n : String),
        p ∈ queueList cfg git rel cs → p.getLast? = some n →
        strLower (pathSuffix n) ∉ cfg.ignore_extensions) ∧
    shouldIgnoreFile
      (let c := load_default_config "p" ["generic"]
       { c with code_extensions := listUnion c.code_extensions [".png"] })
      [] "logo.png" "logo.png" ⟨[1], "x", true, true, true, ""⟩ = true := by
  have hbase : ∀ (cfg : ProjectConfig) (git : List (String × Bool))
      (relStr filename : String) (d : FileData),
      strLower (pathSuffix filename) ∈ cfg.ignore_extensions →
      shouldIgnoreFile cfg git relStr filename d = true := by
    intro cfg git relStr filename d hmem
    by_contra hne
    exact not_mem_ignore_ext_of_not_ignored (Bool.eq_false_iff.mpr hne) hmem
  refine ⟨hbase, ?_, by decide⟩
  intro cfg git rel cs p n hp hlast hmem
  obtain ⟨n', d, hlast', hig, -⟩ := queue_spec cfg git rel cs p hp
  rw [hlast] at hlast'
  obtain rfl : n = n' := by injection hlast'
  rw [hbase cfg git (joinPath p) n d hmem] at hig
  exact Bool.true_eq_false.mp hig

/-- C10: with `include_hidden = false` (the built-in default for every
project type), a dotted file name is ignored by the first check of
`should_ignore_file`, before the gitignore layer is consulted — the
claim quantifies over every pattern list `git`, so no negation pattern
can re-include a hidden file — and hence dotted `config_files` entries
such as `.gitignore` and `.eslintrc.js` (members of the default set) are
never queued for content dumping. -/
theorem claim_C10 :
    (∀ (pname : String) (ptypes : List String),
        (load_default_config pname ptypes).include_hidden = false) ∧
    (".gitignore" ∈ (load_default_config "p" ["generic"]).config_files ∧
     ".eslintrc.js" ∈ (load_default_config "p" ["generic"]).config_files) ∧
    (∀ (cfg : ProjectConfig) (git : List (String × Bool)) (relStr filename : String)
        (d : FileData),
        cfg.include_hidden = false → strStartsWith filename "." = true →
        shouldIgnoreFile cfg git relStr filename d = true) ∧
    (∀ (cfg : ProjectConfig) (git : List (String × Bool)) (rel : List String)
        (cs : List FsEntry) (p : List String) (n : String),
        cfg.include_hidden = false →
        p ∈ queueList cfg git rel cs → p.getLast? = some n →
        strStartsWith n "." = false) ∧
    shouldIgnoreFile (load_default_config "p" ["generic"]) [(".gitignore", true)]
      ".gitignore" ".gitignore" ⟨[], "", true, true, true, ""⟩ = true := by
  have hhid : ∀ (cfg : ProjectConfig) (git : List (String × Bool))
      (relStr filename : String) (d : FileData),
      cfg.include_hidden = false → strStartsWith filename "." = true →
      shouldIgnoreFile cfg git relStr filename d = true := by
    intro cfg git relStr filename d hinc hdot
    unfold shouldIgnoreFile
    rw [if_pos (by rw [hinc, hdot]; rfl)]
  have hP : ∀ ptypes cfg, (overlayPython ptypes cfg).include_hidden = cfg.include_hidden := by
    intro ptypes cfg; unfold overlayPython; split <;> rfl
  have hN : ∀ ptypes cfg, (overlayNode ptypes cfg).include_hidden = cfg.include_hidden := by
    intro ptypes cfg; unfold overlayNode; split <;> rfl
  have hJ : ∀ ptypes cfg, (overlayJava ptypes cfg).include_hidden = cfg.include_hidden := by
    intro ptypes cfg; unfold overlayJava; split <;> rfl
  have hR : ∀ ptypes cfg, (overlayRust ptypes cfg).include_hidden = cfg.include_hidden := by
    intro ptypes cfg; unfold overlayRust; split <;> rfl
  have hG : ∀ ptypes cfg, (overlayGo ptypes cfg).include_hidden = cfg.include_hidden := by
    intro ptypes cfg; unfold overlayGo; split <;> rfl
  have hF : ∀ ptypes cfg, (overlayFlutter ptypes cfg).include_hidden = cfg.include_hidden := by
    intro ptypes cfg; unfold overlayFlutter; split <;> rfl
  refine ⟨?_, ⟨by decide, by decide⟩, hhid, ?_, by decide⟩
  · intro pname ptypes
    unfold load_default_config
    rw [hF, hG, hR, hJ, hN, hP]
    rfl
  · intro cfg git rel cs p n hinc hp hlast
    obtain ⟨n', d, hlast', hig, -⟩ := queue_spec cfg git rel cs p hp
    rw [hlast] at hlast'
    obtain rfl : n = n' := by injection hlast'
    by_contra hdot
    rw [hhid cfg git (joinPath p) n d hinc (Bool.not_eq_false _ |>.mp hdot)] at hig
    exact Bool.true_eq_false.mp hig

/-- C5: a queued file whose first 1024 raw bytes contain a zero byte —
or whose binary probe fails in any way (`probeOk = false`, or the path
no longer resolves) — makes the dump step emit the `BINARY - SKIPPED`
marker and bump `files_skipped`, leaving `files_processed`, `total_size`
and `errors` untouched; the final conjunct evaluates a concrete binary
file. -/
theorem claim_C5 :
    (∀ (fs : List FsEntry) (st : ScanStats) (p : List String) (d : FileData),
        fsGet fs p = some d →
        ((d.bytes.take 1024).contains 0 = true ∨ d.probeOk = false) →
        dumpFile fs st p =
          (["--- " ++ joinPath p ++ " (BINARY - SKIPPED) ---\n\n"],
           { st with files_skipped := st.files_skipped + 1 })) ∧
    (∀ (fs : List FsEntry) (st : ScanStats) (p : List String),
        fsGet fs p = none →
        dumpFile fs st p =
          (["--- " ++ joinPath p ++ " (BINARY - SKIPPED) ---\n\n"],
           { st with files_skipped := st.files_skipped + 1 })) ∧
    (∀ (fs : List FsEntry) (st : ScanStats) (p : List String) (d : FileData),
        fsGet fs p = some d → (d.bytes.take 1024).contains 0 = true →
        ((dumpFile fs st p).2.files_processed = st.files_processed ∧
         (dumpFile fs st p).2.files_skipped = st.files_skipped + 1 ∧
         (dumpFile fs st p).2.total_size = st.total_size ∧
         (dumpFile fs st p).2.errors = st.errors)) ∧
    dumpFile [FsEntry.file "a.bin" ⟨[0, 1, 2], "x", true, true, true, ""⟩]
        ⟨0, 0, 0, 0⟩ ["a.bin"] =
      (["--- a.bin (BINARY - SKIPPED) ---\n\n"], ⟨0, 1, 0, 0⟩) := by
  have hmain : ∀ (fs : List FsEntry) (st : ScanStats) (p : List String) (d : FileData),
      fsGet fs p = some d →
      ((d.bytes.take 1024).contains 0 = true ∨ d.probeOk = false) →
      dumpFile fs st p =
        (["--- " ++ joinPath p ++ " (BINARY - SKIPPED) ---\n\n"],
         { st with files_skipped := st.files_skipped + 1 }) := by
    intro fs st p d hget hbin
    have hb : isBinary (some d) = true := by
      unfold isBinary
      rcases hbin with hb | hb
      · simp only [Bool.or_eq_true]
        exact Or.inr hb
      · simp [hb]
    unfold dumpFile
    rw [hget, if_pos hb]
  refine ⟨hmain, ?_, ?_, by decide⟩
  · intro fs st p hget
    unfold dumpFile
    rw [hget, if_pos (by unfold isBinary; rfl)]
  · intro fs st p d hget hbin
    rw [hmain fs st p d hget (Or.inl hbin)]
    exact ⟨rfl, rfl, rfl, rfl⟩

/-! ### Code-point order lemmas -/

theorem charsLt_irrefl : ∀ as, charsLt as as = false := by
  intro as
  induction as with
  | nil => rfl
  | cons a as ih => simp [charsLt, ih]

theorem charsLt_trans :
    ∀ as bs cs, charsLt as bs = true → charsLt bs cs = true → charsLt as cs = true := by
  intro as
  induction as with
  | nil =>
      intro bs cs h1 h2
      cases bs with
      | nil => simp [charsLt] at h1
      | cons b bs' =>
          cases cs with
          | nil => simp [charsLt] at h2
          | cons c cs' => simp [charsLt]
  | cons a as' ih =>
      intro bs cs h1 h2
      cases bs with
      | nil => simp [charsLt] at h1
      | cons b bs' =>
          cases cs with
          | nil => simp [charsLt] at h2
          | cons c cs' =>
              simp only [charsLt] at h1 h2 ⊢
              by_cases hab : a.toNat < b.toNat
              · by_cases hbc : b.toNat < c.toNat
                · rw [if_pos (by omega : a.toNat < c.toNat)]
                · rw [if_neg hbc] at h2
                  by_cases hcb : c.toNat < b.toNat
                  · rw [if_pos hcb] at h2
                    simp at h2
                  · rw [if_pos (by omega : a.toNat < c.toNat)]
              · rw [if_neg hab] at h1
                by_cases hba : b.toNat < a.toNat
                · rw [if_pos hba] at h1
                  simp at h1
                · rw [if_neg hba] at h1
                  by_cases hbc : b.toNat < c.toNat
                  · rw [if_pos (by omega : a.toNat < c.toNat)]
                  · rw [if_neg hbc] at h2
                    by_cases hcb : c.toNat < b.toNat
                    · rw [if_pos hcb] at h2
                      simp at h2
                    · rw [if_neg hcb] at h2
                      rw [if_neg (by omega : ¬a.toNat < c.toNat),
                          if_neg (by omega : ¬c.toNat < a.toNat)]
                      exact ih bs' cs' h1 h2

theorem charsLt_asymm {as bs} (h : charsLt as bs = true) : charsLt bs as = false := by
  by_contra hne
  have h2 : charsLt bs as = true := by
    cases hcb : charsLt bs as with
    | true => rfl
    | false => exact absurd hcb hne
  have := charsLt_trans as bs as h h2
  rw [charsLt_irrefl] at this
  exact Bool.true_eq_false.mp this.symm

theorem charsLt_connex :
    ∀ as bs, charsLt as bs = false → charsLt bs as = false → as = bs := by
  intro as
  induction as with
  | nil =>
      intro bs h1 h2
      cases bs with
      | nil => rfl
      | cons b bs' => simp [charsLt] at h1
  | cons a as' ih =>
      intro bs h1 h2
      cases bs with
      | nil => simp [charsLt] at h2
      | cons b bs' =>
          simp only [charsLt] at h1 h2
          by_cases hab : a.toNat < b.toNat
          · rw [if_pos hab] at h1
            simp at h1
          · rw [if_neg hab] at h1
            by_cases hba : b.toNat < a.toNat
            · rw [if_pos hba] at h2
              simp at h2
            · rw [if_neg hba] at h1
              rw [if_neg hba, if_neg hab] at h2
              have heq : as' = bs' := ih bs' h1 h2
              have hn : a.toNat = b.toNat := by omega
              have hc : a = b := Char.ext (UInt32.ext hn)
              rw [heq, hc]

theorem str_data_inj {s t : String} (h : s.data = t.data) : s = t := by
  cases s with
  | mk ds =>
      cases t with
      | mk dt =>
          simp only [String.data] at h
          rw [h]

theorem strLe_total (s t : String) : strLe s t = true ∨ strLe t s = true := by
  unfold strLe
  by_cases h1 : charsLt t.data s.data
  · right
    have := charsLt_asymm h1
    simp [this]
  · left
    simp [Bool.eq_false_iff.mpr h1]

theorem strLe_trans {s t u : String} (h1 : strLe s t = true) (h2 : strLe t u = true) :
    strLe s u = true := by
  unfold strLe at h1 h2 ⊢
  simp only [Bool.not_eq_true'] at h1 h2 ⊢
  by_cases hus : charsLt u.data s.data = true
  · by_cases htu : charsLt t.data u.data = true
    · have := charsLt_trans _ _ _ htu hus
      rw [this] at h1
      exact absurd h1 (by simp)
    · have heq : u.data = t.data :=
        charsLt_connex _ _ h2 (Bool.eq_false_iff.mpr htu)
      rw [heq] at hus
      rw [hus] at h1
      exact absurd h1 (by simp)
  · exact Bool.eq_false_iff.mpr hus

theorem strLe_antisymm {s t : String} (h1 : strLe s t = true) (h2 : strLe t s = true) :
    s = t := by
  unfold strLe at h1 h2
  simp only [Bool.not_eq_true'] at h1 h2
  exact str_data_inj (charsLt_connex _ _ h2 h1)

/-! ### Sortedness of `pySort` and uniqueness of sorted lists -/

theorem mem_pyInsert {le : α → α → Bool} {x z : α} {l : List α} :
    z ∈ pyInsert le x l ↔ z = x ∨ z ∈ l := by
  rw [(pyInsert_perm le x l).mem_iff]
  simp

theorem pyInsert_pairwise {le : α → α → Bool}
    (htrans : ∀ a b c, le a b = true → le b c = true → le a c = true)
    (htot : ∀ a b, le a b = true ∨ le b a = true) (x : α) :
    ∀ l, l.Pairwise (fun a b => le a b = true) →
      (pyInsert le x l).Pairwise (fun a b => le a b = true) := by
  intro l
  induction l with
  | nil => intro _; simp [pyInsert]
  | cons y ys ih =>
      intro hp
      rw [List.pairwise_cons] at hp
      obtain ⟨hy, hys⟩ := hp
      simp only [pyInsert]
      by_cases hxy : le x y = true
      · rw [if_pos hxy]
        refine List.Pairwise.cons ?_ (List.Pairwise.cons hy hys)
        intro z hz
        rcases List.mem_cons.mp hz with rfl | hz'
        · exact hxy
        · exact htrans x y z hxy (hy z hz')
      · rw [if_neg hxy]
        refine List.Pairwise.cons ?_ (ih hys)
        intro z hz
        rcases mem_pyInsert.mp hz with rfl | hz'
        · exact (htot z y).resolve_left hxy
        · exact hy z hz'

theorem pySort_pairwise {le : α → α → Bool}
    (htrans : ∀ a b c, le a b = true → le b c = true → le a c = true)
    (htot : ∀ a b, le a b = true ∨ le b a = true) :
    ∀ l : List α, (pySort le l).Pairwise (fun a b => le a b = true) := by
  intro l
  induction l with
  | nil => simp [pySort]
  | cons x xs ih => exact pyInsert_pairwise htrans htot x _ ih

/-- Two sorted lists that are permutations of each other and have no two
equivalent elements are equal. -/
theorem sorted_unique {le : α → α → Bool} {l₁ l₂ : List α}
    (hperm : List.Perm l₁ l₂)
    (h₁ : l₁.Pairwise (fun a b => le a b = true))
    (h₂ : l₂.Pairwise (fun a b => le a b = true))
    (hdist : l₁.Pairwise (fun a b => ¬(le a b = true ∧ le b a = true))) :
    l₁ = l₂ := by
  have hdist₂ : l₂.Pairwise (fun a b => ¬(le a b = true ∧ le b a = true)) :=
    (List.Perm.pairwise_iff (fun hab h => hab ⟨h.2, h.1⟩) hperm).mp hdist
  have hr₁ : l₁.Pairwise (fun a b => le a b = true ∧ ¬(le b a = true)) := by
    have := h₁.and hdist
    exact this.imp (fun h => ⟨h.1, fun hba => h.2 ⟨h.1, hba⟩⟩)
  have hr₂ : l₂.Pairwise (fun a b => le a b = true ∧ ¬(le b a = true)) := by
    have := h₂.and hdist₂
    exact this.imp (fun h => ⟨h.1, fun hba => h.2 ⟨h.1, hba⟩⟩)
  haveI : IsAntisymm α (fun a b => le a b = true ∧ ¬(le b a = true)) :=
    ⟨fun a b hab hba => absurd hab.1 hba.2⟩
  exact List.eq_of_perm_of_sorted hperm hr₁ hr₂

/-! ### Canonical-form and well-formedness basics -/

theorem entryName_canonE (c : FsEntry) : entryName (canonE c) = entryName c := by
  cases c <;> simp [canonE, entryName]

theorem entryIsDir_canonE (c : FsEntry) : entryIsDir (canonE c) = entryIsDir c := by
  cases c <;> simp [canonE, entryIsDir]

theorem canonMap_eq_map : ∀ cs : List FsEntry, canonMap cs = cs.map canonE := by
  intro cs
  induction cs with
  | nil => simp [canonMap]
  | cons c rest ih => simp [canonMap, ih]

theorem canonL_perm (cs : List FsEntry) : List.Perm (canonL cs) (cs.map canonE) := by
  rw [canonL, canonMap_eq_map]
  exact pySort_perm _ _

theorem wf_parts {c : FsEntry} {rest : List FsEntry}
    (h : wellFormedL (c :: rest) = true) :
    wellFormedE c = true ∧ ((rest.map entryName).contains (entryName c)) = false ∧
    wellFormedL rest = true := by
  rw [wellFormedL] at h
  simp only [Bool.and_eq_true, Bool.not_eq_true'] at h
  exact ⟨h.1.1, h.1.2, h.2⟩

theorem wf_mem {cs : List FsEntry} {c : FsEntry}
    (h : wellFormedL cs = true) (hc : c ∈ cs) : wellFormedE c = true := by
  induction cs with
  | nil => simp at hc
  | cons a rest ih =>
      obtain ⟨h1, -, h3⟩ := wf_parts h
      rcases List.mem_cons.mp hc with rfl | hc2
      · exact h1
      · exact ih h3 hc2

theorem wf_dir_children {n : String} {cs2 : List FsEntry}
    (h : wellFormedE (FsEntry.dir n cs2) = true) : wellFormedL cs2 = true := by
  rw [wellFormedE] at h
  simp only [Bool.and_eq_true] at h
  exact h.2

theorem wfE_good {c : FsEntry} (h : wellFormedE c = true) :
    goodName (entryName c) = true := by
  cases c with
  | file n d => simpa [wellFormedE, entryName] using h
  | dir n cs =>
      rw [wellFormedE] at h
      simp only [Bool.and_eq_true] at h
      simpa [entryName] using h.1

theorem wf_names_nodup {cs : List FsEntry} (h : wellFormedL cs = true) :
    (cs.map entryName).Nodup := by
  induction cs with
  | nil => simp
  | cons c rest ih =>
      obtain ⟨-, h2, h3⟩ := wf_parts h
      simp only [List.map_cons, List.nodup_cons]
      refine ⟨?_, ih h3⟩
      intro hmem
      have hcont : (rest.map entryName).contains (entryName c) = true := by
        simpa [List.elem_iff] using hmem
      rw [h2] at hcont
      exact Bool.false_ne_true hcont

theorem countP_name_le_one {cs : List FsEntry}
    (h : (cs.map entryName).Nodup) (n : String) :
    cs.countP (fun c => entryName c == n) ≤ 1 := by
  have h1 : (cs.map entryName).countP (fun s => s == n)
      = cs.countP (fun c => entryName c == n) := List.countP_map _ _ _
  rw [← h1]
  have h2 : (cs.map entryName).countP (fun s => s == n)
      = (cs.map entryName).count n := rfl
  rw [h2]
  exact List.nodup_iff_count_le_one.mp h n

/-! ### Lookup invariance under canonicalisation -/

theorem find_eq_head_filter {α : Type} (p : α → Bool) :
    ∀ l : List α, l.find? p = (l.filter p).head? := by
  intro l
  induction l with
  | nil => rfl
  | cons a l ih =>
      by_cases h : p a = true
      · rw [List.find?_cons_of_pos _ h, List.filter_cons_of_pos h]
        rfl
      · rw [List.find?_cons_of_neg _ h,
            List.filter_cons_of_neg (by simpa using h)]
        exact ih

theorem find_eq_of_perm_of_count {α : Type} {p : α → Bool} {l₁ l₂ : List α}
    (hperm : List.Perm l₁ l₂) (hc : l₁.countP p ≤ 1) :
    l₁.find? p = l₂.find? p := by
  rw [find_eq_head_filter, find_eq_head_filter]
  have hp := hperm.filter p
  rw [List.countP_eq_length_filter] at hc
  cases hf : l₁.filter p with
  | nil =>
      rw [hf] at hp
      rw [hp.nil_eq]
  | cons a rest =>
      rw [hf] at hp hc
      cases rest with
      | nil =>
          have h2 := List.singleton_perm.mp hp
          rw [← h2]
      | cons b r2 => simp at hc

theorem findEntry_canonL {cs : List FsEntry} (h : wellFormedL cs = true)
    (n : String) :
    findEntry (canonL cs) n = (findEntry cs n).map canonE := by
  unfold findEntry
  have hfun : ((fun c => entryName c == n) ∘ canonE) = (fun c => entryName c == n) := by
    funext c
    simp [Function.comp, entryName_canonE]
  have hcount : (cs.map canonE).countP (fun c => entryName c == n) ≤ 1 := by
    rw [List.countP_map, hfun]
    exact countP_name_le_one (wf_names_nodup h) n
  calc List.find? (fun c => entryName c == n) (canonL cs)
      = List.find? (fun c => entryName c == n) (cs.map canonE) :=
        (find_eq_of_perm_of_count (canonL_perm cs).symm hcount).symm
    _ = (List.find? ((fun c => entryName c == n) ∘ canonE) cs).map canonE :=
        List.find?_map _ _
    _ = (List.find? (fun c => entryName c == n) cs).map canonE := by rw [hfun]

theorem loadGitignore_canonL {cs : List FsEntry} (h : wellFormedL cs = true) :
    loadGitignore (canonL cs) = loadGitignore cs := by
  unfold loadGitignore
  rw [findEntry_canonL h]
  cases hF : findEntry cs ".gitignore" with
  | none => rfl
  | some c =>
      cases c with
      | file n d => simp [canonE]
      | dir n cs2 => simp [canonE]

theorem fsGet_canonL :
    ∀ (p : List String) (cs : List FsEntry), wellFormedL cs = true →
      fsGet (canonL cs) p = fsGet cs p
  | [], cs, h => by simp [fsGet]
  | [n], cs, h => by
      simp only [fsGet]
      rw [findEntry_canonL h]
      cases hF : findEntry cs n with
      | none => rfl
      | some c =>
          cases c with
          | file m d => simp [canonE]
          | dir m cs2 => simp [canonE]
  | n :: m :: rest, cs, h => by
      simp only [fsGet]
      rw [findEntry_canonL h]
      cases hF : findEntry cs n with
      | none => rfl
      | some c =>
          cases c with
          | file m2 d => simp [canonE]
          | dir m2 cs2 =>
              simp only [Option.map_some', canonE]
              exact fsGet_canonL (m :: rest) cs2
                (wf_dir_children (wf_mem h (List.mem_of_find?_eq_some hF)))

/-! ### Walk summaries are invariant under canonicalisation

The queue of files to dump and the skipped-file count are
order-insensitive summaries of the walk: permuting the sibling lists
permutes the queue and leaves the count unchanged. -/

theorem queueList_eq_flatMap (cfg : ProjectConfig) (git : List (String × Bool)) :
    ∀ (rel : List String) (cs : List FsEntry),
      queueList cfg git rel cs
        = cs.flatMap (fun c => queueList cfg git rel [c])
  | rel, [] => by simp [queueList]
  | rel, FsEntry.file n d :: rest => by
      rw [queueList, queueList_eq_flatMap cfg git rel rest]
      simp [queueList]
  | rel, FsEntry.dir m cs2 :: rest => by
      rw [queueList, queueList_eq_flatMap cfg git rel rest]
      simp [queueList]

theorem skippedCount_eq_sum (cfg : ProjectConfig) (git : List (String × Bool)) :
    ∀ (rel : List String) (cs : List FsEntry),
      skippedCount cfg git rel cs
        = (cs.map (fun c => skippedCount cfg git rel [c])).sum
  | rel, [] => by simp [skippedCount]
  | rel, FsEntry.file n d :: rest => by
      rw [skippedCount, skippedCount_eq_sum cfg git rel rest]
      simp [skippedCount]
  | rel, FsEntry.dir m cs2 :: rest => by
      rw [skippedCount, skippedCount_eq_sum cfg git rel rest]
      simp [skippedCount]

theorem queueList_canonL_perm (cfg : ProjectConfig) (git : List (String × Bool)) :
    ∀ (cs : List FsEntry) (rel : List String),
      List.Perm (queueList cfg git rel (canonL cs)) (queueList cfg git rel cs)
  | cs, rel => by
      rw [queueList_eq_flatMap cfg git rel (canonL cs),
          queueList_eq_flatMap cfg git rel cs]
      have h1 : List.Perm
          ((canonL cs).flatMap (fun c => queueList cfg git rel [c]))
          ((cs.map canonE).flatMap (fun c => queueList cfg git rel [c])) :=
        (canonL_perm cs).flatMap_right _
      have h2 : (cs.map canonE).flatMap (fun c => queueList cfg git rel [c])
          = cs.flatMap (fun c => queueList cfg git rel [canonE c]) :=
        List.flatMap_map _ _ _
      refine h1.trans (h2 ▸ List.Perm.flatMap_left cs ?_)
      intro c hc
      cases c with
      | file n d => simp [canonE]
      | dir m cs2 =>
          simp only [canonE, queueList, List.append_nil]
          by_cases hig : shouldIgnoreDir cfg git (joinPath (rel ++ [m])) m
          · rw [if_pos hig, if_pos hig]
          · rw [if_neg hig, if_neg hig]
            exact queueList_canonL_perm cfg git cs2 (rel ++ [m])
termination_by cs rel => sizeOf cs
decreasing_by
  have h3 := List.sizeOf_lt_of_mem hc
  simp [FsEntry.dir.sizeOf_spec] at h3
  omega

theorem skippedCount_canonL (cfg : ProjectConfig) (git : List (String × Bool)) :
    ∀ (cs : List FsEntry) (rel : List String),
      skippedCount cfg git rel (canonL cs) = skippedCount cfg git rel cs
  | cs, rel => by
      rw [skippedCount_eq_sum cfg git rel (canonL cs),
          skippedCount_eq_sum cfg git rel cs]
      have h1 := ((canonL_perm cs).map
        (fun c => skippedCount cfg git rel [c])).sum_eq
      rw [h1, List.map_map]
      congr 1
      refine List.map_congr_left ?_
      intro c hc
      cases c with
      | file n d => simp [canonE]
      | dir m cs2 =>
          simp only [Function.comp, canonE, skippedCount, Nat.add_zero]
          by_cases hig : shouldIgnoreDir cfg git (joinPath (rel ++ [m])) m
          · rw [if_pos hig, if_pos hig]
          · rw [if_neg hig, if_neg hig]
            exact skippedCount_canonL cfg git cs2 (rel ++ [m])
termination_by cs rel => sizeOf cs
decreasing_by
  have h3 := List.sizeOf_lt_of_mem hc
  simp [FsEntry.dir.sizeOf_spec] at h3
  omega

/-! ### Queued paths: component structure

Every component of a queued path is a real file-system name (nonempty,
no separator), distinct siblings contribute distinct paths, and joining
with `/` is injective on such paths — so sorting the queue by the joined
path string has a unique result. -/

theorem good_parts {n : String} (h : goodName n = true) :
    n.data ≠ [] ∧ n.data.contains '/' = false := by
  unfold goodName at h
  simp only [Bool.and_eq_true, Bool.not_eq_true'] at h
  exact ⟨by simpa using h.1, h.2⟩

theorem slash_split_inj :
    ∀ (xs ys us vs : List Char), xs.contains '/' = false →
      ys.contains '/' = false → xs ++ '/' :: us = ys ++ '/' :: vs →
      xs = ys ∧ us = vs := by
  intro xs
  induction xs with
  | nil =>
      intro ys us vs hx hy heq
      cases ys with
      | nil => simpa using heq
      | cons y ys2 =>
          simp only [List.nil_append, List.cons_append] at heq
          injection heq with h1 h2
          rw [← h1] at hy
          simp at hy
  | cons x xs2 ih =>
      intro ys us vs hx hy heq
      cases ys with
      | nil =>
          simp only [List.cons_append, List.nil_append] at heq
          injection heq with h1 h2
          rw [h1] at hx
          simp at hx
      | cons y ys2 =>
          simp only [List.cons_append] at heq
          injection heq with h1 h2
          simp only [List.contains_cons, Bool.or_eq_false_iff] at hx hy
          obtain ⟨hA, hB⟩ := ih ys2 us vs hx.2 hy.2 h2
          exact ⟨by rw [h1, hA], hB⟩

theorem joinPath_cons_data (m : String) (q : List String) :
    (joinPath (m :: q)).data
      = m.data ++ (match q with
                   | [] => []
                   | _ :: _ => '/' :: (joinPath q).data) := by
  cases q with
  | nil => simp [joinPath]
  | cons a t =>
      show (m ++ "/" ++ joinPath (a :: t)).data = _
      rw [String.data_append, String.data_append]
      simp

theorem joinPath_inj :
    ∀ (p q : List String), (∀ x ∈ p, goodName x = true) →
      (∀ x ∈ q, goodName x = true) → joinPath p = joinPath q → p = q := by
  intro p
  induction p with
  | nil =>
      intro q hp hq heq
      cases q with
      | nil => rfl
      | cons m q2 =>
          exfalso
          have hd : ([] : List Char) = (joinPath (m :: q2)).data :=
            congrArg String.data heq
          rw [joinPath_cons_data] at hd
          have hgm := good_parts (hq m (by simp))
          cases q2 with
          | nil =>
              simp only [List.append_nil] at hd
              exact hgm.1 hd.symm
          | cons a t =>
              rcases List.append_eq_nil.mp hd.symm with ⟨h1, h2⟩
              simp at h2
  | cons n p2 ih =>
      intro q hp hq heq
      cases q with
      | nil =>
          exfalso
          have hd : (joinPath (n :: p2)).data = ([] : List Char) :=
            congrArg String.data heq
          rw [joinPath_cons_data] at hd
          have hgn := good_parts (hp n (by simp))
          cases p2 with
          | nil =>
              simp only [List.append_nil] at hd
              exact hgn.1 hd
          | cons a t =>
              rcases List.append_eq_nil.mp hd with ⟨h1, h2⟩
              simp at h2
      | cons m q2 =>
          have hd : (joinPath (n :: p2)).data = (joinPath (m :: q2)).data :=
            congrArg String.data heq
          rw [joinPath_cons_data, joinPath_cons_data] at hd
          have hgn := good_parts (hp n (by simp))
          have hgm := good_parts (hq m (by simp))
          cases p2 with
          | nil =>
              cases q2 with
              | nil =>
                  simp only [List.append_nil] at hd
                  rw [str_data_inj hd]
              | cons a t =>
                  exfalso
                  simp only [List.append_nil] at hd
                  have : ('/' : Char) ∈ n.data := by
                    rw [hd]
                    exact List.mem_append.mpr (Or.inr (by simp))
                  have hc : n.data.contains '/' = true := by
                    simpa [List.elem_iff] using this
                  rw [hgn.2] at hc
                  exact Bool.false_ne_true hc
          | cons b u =>
              cases q2 with
              | nil =>
                  exfalso
                  simp only [List.append_nil] at hd
                  have : ('/' : Char) ∈ m.data := by
                    rw [← hd]
                    exact List.mem_append.mpr (Or.inr (by simp))
                  have hc : m.data.contains '/' = true := by
                    simpa [List.elem_iff] using this
                  rw [hgm.2] at hc
                  exact Bool.false_ne_true hc
              | cons a t =>
                  obtain ⟨hA, hB⟩ := slash_split_inj n.data m.data _ _ hgn.2 hgm.2 hd
                  have hn : n = m := str_data_inj hA
                  have hJ : joinPath (b :: u) = joinPath (a :: t) :=
                    str_data_inj hB
                  have hrest : (b :: u) = (a :: t) :=
                    ih (a :: t) (fun x hx => hp x (List.mem_cons_of_mem n hx))
                      (fun x hx => hq x (List.mem_cons_of_mem m hx)) hJ
                  rw [hn, hrest]

theorem queueList_cons (cfg : ProjectConfig) (git : List (String × Bool))
    (rel : List String) (c : FsEntry) (rest : List FsEntry) :
    queueList cfg git rel (c :: rest)
      = queueList cfg git rel [c] ++ queueList cfg git rel rest := by
  cases c <;> simp [queueList]

theorem queue_first_comp (cfg : ProjectConfig) (git : List (String × Bool))
    (rel : List String) (c : FsEntry) (p : List String)
    (hp : p ∈ queueList cfg git rel [c]) :
    ∃ s, p = rel ++ entryName c :: s := by
  cases c with
  | file n d =>
      simp only [queueList, List.append_nil] at hp
      split at hp
      · simp at hp
      · split at hp
        · exact ⟨[], by simpa [entryName] using hp⟩
        · simp at hp
  | dir m cs2 =>
      simp only [queueList, List.append_nil] at hp
      split at hp
      · simp at hp
      · obtain ⟨s, hs, -, -⟩ := queue_shape cfg git (rel ++ [m]) cs2 p hp
        exact ⟨s, by simpa [entryName, List.append_assoc] using hs⟩

theorem queue_mem_decomp (cfg : ProjectConfig) (git : List (String × Bool))
    (rel : List String) :
    ∀ (cs : List FsEntry) (p : List String), p ∈ queueList cfg git rel cs →
      ∃ c ∈ cs, ∃ s, p = rel ++ entryName c :: s := by
  intro cs
  induction cs with
  | nil => simp [queueList]
  | cons c rest ih =>
      intro p hp
      rw [queueList_cons] at hp
      rcases List.mem_append.mp hp with h1 | h2
      · obtain ⟨s, hs⟩ := queue_first_comp cfg git rel c p h1
        exact ⟨c, List.mem_cons_self c rest, s, hs⟩
      · obtain ⟨c2, hc2, s, hs⟩ := ih p h2
        exact ⟨c2, List.mem_cons_of_mem c hc2, s, hs⟩

theorem queue_good (cfg : ProjectConfig) (git : List (String × Bool)) :
    ∀ (cs : List FsEntry) (rel : List String) (p : List String),
      wellFormedL cs = true → (∀ x ∈ rel, goodName x = true) →
      p ∈ queueList cfg git rel cs → ∀ x ∈ p, goodName x = true
  | [], rel, p, h, hrel => by
      intro hp
      simp [queueList] at hp
  | FsEntry.file n d :: rest, rel, p, h, hrel => by
      intro hp
      obtain ⟨h1, -, h3⟩ := wf_parts h
      rw [queueList_cons] at hp
      rcases List.mem_append.mp hp with hA | hB
      · simp only [queueList, List.append_nil] at hA
        split at hA
        · simp at hA
        · split at hA
          · have hpn : p = rel ++ [n] := by simpa using hA
            subst hpn
            intro x hx
            rcases List.mem_append.mp hx with hx1 | hx2
            · exact hrel x hx1
            · have hxn : x = n := by simpa using hx2
              subst hxn
              simpa [entryName] using wfE_good h1
          · simp at hA
      · exact queue_good cfg git rest rel p h3 hrel hB
  | FsEntry.dir m cs2 :: rest, rel, p, h, hrel => by
      intro hp
      obtain ⟨h1, -, h3⟩ := wf_parts h
      rw [queueList_cons] at hp
      rcases List.mem_append.mp hp with hA | hB
      · simp only [queueList, List.append_nil] at hA
        split at hA
        · simp at hA
        · refine queue_good cfg git cs2 (rel ++ [m]) p
            (wf_dir_children h1) ?_ hA
          intro x hx
          rcases List.mem_append.mp hx with hx1 | hx2
          · exact hrel x hx1
          · have hxm : x = m := by simpa using hx2
            subst hxm
            simpa [entryName] using wfE_good h1
      · exact queue_good cfg git rest rel p h3 hrel hB
termination_by cs rel p => sizeOf cs

theorem queue_nodup (cfg : ProjectConfig) (git : List (String × Bool)) :
    ∀ (cs : List FsEntry) (rel : List String), wellFormedL cs = true →
      (queueList cfg git rel cs).Nodup
  | [], rel, h => by simp [queueList]
  | FsEntry.file n d :: rest, rel, h => by
      obtain ⟨h1, h2, h3⟩ := wf_parts h
      rw [queueList_cons, List.nodup_append]
      refine ⟨?_, queue_nodup cfg git rest rel h3, ?_⟩
      · simp only [queueList, List.append_nil]
        split
        · exact List.nodup_nil
        · split
          · simp
          · exact List.nodup_nil
      · intro a ha hb
        obtain ⟨s, hs⟩ := queue_first_comp cfg git rel (FsEntry.file n d) a ha
        obtain ⟨c2, hc2, s2, hs2⟩ := queue_mem_decomp cfg git rel rest a hb
        rw [hs] at hs2
        have h4 := List.append_cancel_left hs2
        injection h4 with h5 h6
        have hcont : (rest.map entryName).contains
            (entryName (FsEntry.file n d)) = true := by
          rw [h5]
          simpa [List.elem_iff] using List.mem_map_of_mem entryName hc2
        rw [h2] at hcont
        exact Bool.false_ne_true hcont
  | FsEntry.dir m cs2 :: rest, rel, h => by
      obtain ⟨h1, h2, h3⟩ := wf_parts h
      rw [queueList_cons, List.nodup_append]
      refine ⟨?_, queue_nodup cfg git rest rel h3, ?_⟩
      · simp only [queueList, List.append_nil]
        split
        · exact List.nodup_nil
        · exact queue_nodup cfg git cs2 (rel ++ [m]) (wf_dir_children h1)
      · intro a ha hb
        obtain ⟨s, hs⟩ := queue_first_comp cfg git rel (FsEntry.dir m cs2) a ha
        obtain ⟨c2, hc2, s2, hs2⟩ := queue_mem_decomp cfg git rel rest a hb
        rw [hs] at hs2
        have h4 := List.append_cancel_left hs2
        injection h4 with h5 h6
        have hcont : (rest.map entryName).contains
            (entryName (FsEntry.dir m cs2)) = true := by
          rw [h5]
          simpa [List.elem_iff] using List.mem_map_of_mem entryName hc2
        rw [h2] at hcont
        exact Bool.false_ne_true hcont
termination_by cs rel => sizeOf cs

/-! ### The sorted queue and the sorted tree are canonical -/

theorem sortedQueue_canonL (cfg : ProjectConfig) (git : List (String × Bool))
    {fs : List FsEntry} (h : wellFormedL fs = true) :
    pySort (fun a b => strLe (joinPath a) (joinPath b))
        (queueList cfg git [] (canonL fs))
      = pySort (fun a b => strLe (joinPath a) (joinPath b))
        (queueList cfg git [] fs) := by
  refine (@sorted_unique (List String)
    (fun a b => strLe (joinPath a) (joinPath b)) _ _ ?_ ?_ ?_ ?_).symm
  · exact (pySort_perm _ _).trans
      ((queueList_canonL_perm cfg git fs []).symm.trans (pySort_perm _ _).symm)
  · exact @pySort_pairwise _ (fun a b => strLe (joinPath a) (joinPath b))
      (fun a b c h1 h2 => strLe_trans h1 h2)
      (fun a b => strLe_total (joinPath a) (joinPath b)) _
  · exact @pySort_pairwise _ (fun a b => strLe (joinPath a) (joinPath b))
      (fun a b c h1 h2 => strLe_trans h1 h2)
      (fun a b => strLe_total (joinPath a) (joinPath b)) _
  · have hnodup : (pySort (fun a b => strLe (joinPath a) (joinPath b))
        (queueList cfg git [] fs)).Nodup :=
      (pySort_perm _ _).nodup_iff.mpr (queue_nodup cfg git fs [] h)
    refine hnodup.imp_of_mem ?_
    intro a b ha hb hne hc
    have hja : joinPath a = joinPath b := strLe_antisymm hc.1 hc.2
    have hga : ∀ x ∈ a, goodName x = true :=
      queue_good cfg git fs [] a h (by simp) (mem_pySort.mp ha)
    have hgb : ∀ x ∈ b, goodName x = true :=
      queue_good cfg git fs [] b h (by simp) (mem_pySort.mp hb)
    exact hne (joinPath_inj a b hga hgb hja)

theorem childLE_canonE (a b : FsEntry) :
    childLE (canonE a) (canonE b) = childLE a b := by
  unfold childLE
  rw [entryName_canonE, entryName_canonE, entryIsDir_canonE, entryIsDir_canonE]

theorem childLE_trans (a b c : FsEntry) (h1 : childLE a b = true)
    (h2 : childLE b c = true) : childLE a c = true := by
  unfold childLE at h1 h2 ⊢
  cases hx : entryIsDir a <;> cases hy : entryIsDir b <;>
    cases hz : entryIsDir c <;> simp [hx, hy, hz] at h1 h2 ⊢ <;>
    try exact strLe_trans h1 h2

theorem childLE_total (a b : FsEntry) :
    childLE a b = true ∨ childLE b a = true := by
  unfold childLE
  cases hx : entryIsDir a <;> cases hy : entryIsDir b <;>
    simp [hx, hy] <;> try exact strLe_total _ _

theorem childLE_both_name (a b : FsEntry) (h1 : childLE a b = true)
    (h2 : childLE b a = true) : entryName a = entryName b := by
  unfold childLE at h1 h2
  cases hx : entryIsDir a <;> cases hy : entryIsDir b <;>
    simp [hx, hy] at h1 h2 <;> try exact strLe_antisymm h1 h2

theorem sortChildren_canonL {cs : List FsEntry} (h : wellFormedL cs = true) :
    sortChildren (canonL cs) = (sortChildren cs).map canonE := by
  simp only [sortChildren]
  refine (@sorted_unique FsEntry childLE _ _ ?_ ?_ ?_ ?_).symm
  · exact ((pySort_perm childLE cs).map canonE).trans
      ((canonL_perm cs).symm.trans (pySort_perm childLE (canonL cs)).symm)
  · exact (pySort_pairwise childLE_trans childLE_total cs).map canonE
      (fun a b hab => by rw [childLE_canonE]; exact hab)
  · exact pySort_pairwise childLE_trans childLE_total (canonL cs)
  · have hnames : ((pySort childLE cs).map entryName).Nodup :=
      ((pySort_perm childLE cs).map entryName).nodup_iff.mpr (wf_names_nodup h)
    have hq : (pySort childLE cs).Pairwise
        (fun a b => entryName a ≠ entryName b) := List.pairwise_map.mp hnames
    refine hq.map canonE ?_
    intro a b hne hc
    have heq := childLE_both_name _ _ hc.1 hc.2
    rw [entryName_canonE, entryName_canonE] at heq
    exact hne heq

theorem renderItems_canon (cfg : ProjectConfig) (git : List (String × Bool)) :
    ∀ (cs : List FsEntry) (rel : List String) (pre : String),
      (∀ c ∈ cs, wellFormedE c = true) →
      renderItems cfg git rel pre (cs.map canonE)
        = renderItems cfg git rel pre cs
  | [], rel, pre, h => by simp [renderItems]
  | FsEntry.file n d :: rest, rel, pre, h => by
      have hmap : (FsEntry.file n d :: rest).map canonE
          = FsEntry.file n d :: rest.map canonE := by simp [canonE]
      rw [hmap, renderItems, renderItems]
      have hie : (rest.map canonE).isEmpty = rest.isEmpty := by
        cases rest <;> simp
      rw [renderItems_canon cfg git rest rel pre
        (fun c hc => h c (List.mem_cons_of_mem _ hc))]
      congr 1
      simp [hie]
  | FsEntry.dir m cs2 :: rest, rel, pre, h => by
      have hwf := h (FsEntry.dir m cs2) (List.mem_cons_self _ _)
      have hmap : (FsEntry.dir m cs2 :: rest).map canonE
          = FsEntry.dir m (canonL cs2) :: rest.map canonE := by simp [canonE]
      rw [hmap, renderItems, renderItems]
      have hie : (rest.map canonE).isEmpty = rest.isEmpty := by
        cases rest <;> simp
      rw [renderItems_canon cfg git rest rel pre
        (fun c hc => h c (List.mem_cons_of_mem _ hc))]
      congr 1
      simp only [hie]
      by_cases hig : shouldIgnoreDir cfg git (joinPath (rel ++ [m])) m
      · simp [hig]
      · simp only [if_neg hig]
        congr 1
        rw [sortChildren_canonL (wf_dir_children hwf)]
        exact renderItems_canon cfg git (sortChildren cs2) (rel ++ [m])
          (pre ++ (if rest.isEmpty then "    " else "│   "))
          (fun c hc => wf_mem (wf_dir_children hwf) (mem_pySort.mp hc))
termination_by cs rel pre => sizeOf cs
decreasing_by
  all_goals try simp only [sortChildren, pySort_sizeOf]
  all_goals simp [List.cons.sizeOf_spec, FsEntry.dir.sizeOf_spec]
  all_goals try omega

theorem writeTree_canonL (cfg : ProjectConfig) (git : List (String × Bool))
    {fs : List FsEntry} (h : wellFormedL fs = true) :
    writeTree cfg git (canonL fs) = writeTree cfg git fs := by
  unfold writeTree
  rw [sortChildren_canonL h]
  exact renderItems_canon cfg git (sortChildren fs) [] ""
    (fun c hc => wf_mem h (mem_pySort.mp hc))

theorem dumpFile_canonL {fs : List FsEntry} (h : wellFormedL fs = true)
    (st : ScanStats) (p : List String) :
    dumpFile (canonL fs) st p = dumpFile fs st p := by
  unfold dumpFile
  rw [fsGet_canonL p fs h]

theorem dumpAll_canonL {fs : List FsEntry} (h : wellFormedL fs = true) :
    ∀ (ps : List (List String)) (st : ScanStats),
      dumpAll (canonL fs) ps st = dumpAll fs ps st := by
  intro ps
  induction ps with
  | nil => intro st; simp [dumpAll]
  | cons p rest ih =>
      intro st
      simp only [dumpAll]
      rw [dumpFile_canonL h, ih]

/-- The whole per-project output depends on the directory tree only
through its canonical form: listing the same directory in any order
produces the same bytes and the same statistics. -/
theorem scanOutput_canonL (cfg : ProjectConfig) (projPath : String)
    {fs : List FsEntry} (h : wellFormedL fs = true) :
    scanOutput cfg projPath (canonL fs) = scanOutput cfg projPath fs := by
  simp only [scanOutput]
  rw [loadGitignore_canonL h]
  rw [skippedCount_canonL cfg (loadGitignore fs) fs []]
  rw [sortedQueue_canonL cfg (loadGitignore fs) h]
  rw [writeTree_canonL cfg (loadGitignore fs) h]
  rw [dumpAll_canonL h]

/-- C9: the per-project output is a deterministic function of the
project's file-system state and configuration: two scans that see the
same files (the same canonical directory tree, however the directory
entries happen to be listed) produce byte-identical chunk sequences and
statistics; the dump phase runs over the lexicographic sort (by joined
path string) of the queued file paths, a permutation of the queue; the
tree listing sorts each directory's entries directories-first then by
name (`childLE`), a permutation of the children; and a concrete
reordered pair of files yields identical output. -/
theorem claim_C9 :
    (∀ (cfg : ProjectConfig) (projPath : String) (fs₁ fs₂ : List FsEntry),
        wellFormedL fs₁ = true → wellFormedL fs₂ = true →
        canonL fs₁ = canonL fs₂ →
        scanOutput cfg projPath fs₁ = scanOutput cfg projPath fs₂) ∧
    (∀ (cfg : ProjectConfig) (git : List (String × Bool)) (fs : List FsEntry),
        (pySort (fun a b => strLe (joinPath a) (joinPath b))
            (queueList cfg git [] fs)).Pairwise
          (fun a b => strLe (joinPath a) (joinPath b) = true) ∧
        List.Perm
          (pySort (fun a b => strLe (joinPath a) (joinPath b))
            (queueList cfg git [] fs))
          (queueList cfg git [] fs)) ∧
    (∀ cs : List FsEntry,
        (sortChildren cs).Pairwise (fun a b => childLE a b = true) ∧
        List.Perm (sortChildren cs) cs) ∧
    (∀ dA dB : FileData,
        scanOutput (baseConfig "demo" ["generic"]) "p"
            [FsEntry.file "b" dB, FsEntry.file "a" dA]
          = scanOutput (baseConfig "demo" ["generic"]) "p"
            [FsEntry.file "a" dA, FsEntry.file "b" dB]) := by
  refine ⟨?_, ?_, ?_, ?_⟩
  · intro cfg projPath fs₁ fs₂ h1 h2 hc
    calc scanOutput cfg projPath fs₁
        = scanOutput cfg projPath (canonL fs₁) :=
          (scanOutput_canonL cfg projPath h1).symm
      _ = scanOutput cfg projPath (canonL fs₂) := by rw [hc]
      _ = scanOutput cfg projPath fs₂ := scanOutput_canonL cfg projPath h2
  · intro cfg git fs
    exact ⟨@pySort_pairwise _ (fun a b => strLe (joinPath a) (joinPath b))
        (fun a b c h1 h2 => strLe_trans h1 h2)
        (fun a b => strLe_total (joinPath a) (joinPath b)) _,
      pySort_perm _ _⟩
  · intro cs
    exact ⟨pySort_pairwise childLE_trans childLE_total cs, pySort_perm _ _⟩
  · intro dA dB
    have h1 : wellFormedL [FsEntry.file "b" dB, FsEntry.file "a" dA] = true := by
      simp [wellFormedL, wellFormedE, goodName, entryName]
    have h2 : wellFormedL [FsEntry.file "a" dA, FsEntry.file "b" dB] = true := by
      simp [wellFormedL, wellFormedE, goodName, entryName]
    have hc : canonL [FsEntry.file "b" dB, FsEntry.file "a" dA]
        = canonL [FsEntry.file "a" dA, FsEntry.file "b" dB] := by
      simp [canonL, canonMap, canonE, pySort, pyInsert, nameLE, entryName,
        strLe, charsLt]
    calc scanOutput (baseConfig "demo" ["generic"]) "p"
            [FsEntry.file "b" dB, FsEntry.file "a" dA]
        = scanOutput (baseConfig "demo" ["generic"]) "p"
            (canonL [FsEntry.file "b" dB, FsEntry.file "a" dA]) :=
          (scanOutput_canonL _ _ h1).symm
      _ = scanOutput (baseConfig "demo" ["generic"]) "p"
            (canonL [FsEntry.file "a" dA, FsEntry.file "b" dB]) := by rw [hc]
      _ = scanOutput (baseConfig "demo" ["generic"]) "p"
            [FsEntry.file "a" dA, FsEntry.file "b" dB] :=
          scanOutput_canonL _ _ h2

end UScan
